import Mathlib

/-!
# Verification of the DrDuck change-fingerprinting and analysis cache

A shallow embedding of the cache subsystem of the DrDuck CLI
(`internal/cache`: storage, fingerprinter, manager, types), together with
proofs about the frozen claims over that subsystem.

Modelling conventions:
* Go strings are modelled as `List Char` (`Str`).  All paths, patterns and
  diffs handled by the claims are ASCII, where byte-level and rune-level
  string operations coincide.
* Go `time.Time` and `time.Duration` are modelled as `Int` nanoseconds.
* Go maps (`map[string]CacheEntry`, `map[string]string`) are modelled as
  association lists.  Where Go map iteration order is observable (the
  fingerprint hasher, the eviction sort input), the theorems quantify over
  an arbitrary permutation standing for the iteration order.
* `crypto/sha256` + hex encoding is an external library call; it is taken
  as an arbitrary function parameter `sha : Str → Str`.  The claims proved
  here only depend on the hash pre-image construction, never on properties
  of SHA-256 itself.
* Disk I/O is modelled by a `FileState` describing the persisted cache
  file (absent / unreadable / unparsable / stored contents).  Each storage
  operation is a function from the persisted state (plus the current time)
  to its result and the new persisted state, mirroring the code's
  load-mutate-save structure.
-/

set_option linter.unusedVariables false

namespace DrDuck

/-- A Go string, modelled as its list of characters. -/
abbrev Str := List Char

/-- Embed a Lean string literal as a `Str`. -/
def str (s : String) : Str := s.data

/-- Go `strings.HasPrefix`. -/
def strStartsWith (s p : Str) : Bool := p.isPrefixOf s

/-- Go `strings.HasSuffix`. -/
def strEndsWith (s p : Str) : Bool := p.isSuffixOf s

/-- Go `strings.Contains` (substring occurrence test). -/
def strContains : Str → Str → Bool
  | s, pat =>
    if pat.isPrefixOf s then true
    else
      match s with
      | [] => false
      | _ :: rest => strContains rest pat

/-- Go `strings.Split(s, sep)` for a nonempty separator: splits around every
non-overlapping occurrence of `sep`, scanning left to right.  (The code only
ever splits on the literals `"\n"` and `" b/"`, both nonempty.) -/
def splitOnStr (sep : Str) : Str → List Str
  | [] => [[]]
  | c :: rest =>
    if sep ≠ [] ∧ sep.isPrefixOf (c :: rest) then
      [] :: splitOnStr sep ((c :: rest).drop sep.length)
    else
      match splitOnStr sep rest with
      | [] => [[c]]
      | h :: t => (c :: h) :: t
termination_by s => s.length
decreasing_by
  · rename_i hp
    have h1 : 0 < sep.length := List.length_pos.mpr hp.1
    simp only [List.length_drop, List.length_cons]
    omega
  · simp

/-- Go `strings.Join(lines, "\n")`. -/
def joinNL : List Str → Str
  | [] => []
  | [l] => l
  | l :: ls => l ++ '\n' :: joinNL ls

/-- Go `strings.ReplaceAll(s, old, new)` for nonempty `old` (the code only
replaces the literal `"**"`): replaces every non-overlapping occurrence,
left to right. -/
def replaceAll (s old new : Str) : Str :=
  if h : old = [] then s
  else
    match s with
    | [] => []
    | c :: rest =>
      if old.isPrefixOf (c :: rest) then new ++ replaceAll ((c :: rest).drop old.length) old new
      else c :: replaceAll rest old new
termination_by s.length
decreasing_by
  · simp only [List.length_drop]
    have : 0 < old.length := List.length_pos.mpr h
    simp [List.length_cons]
    omega
  · simp

/-- Models `getEsc` from Go `path/filepath/match.go`: reads one (possibly
backslash-escaped) character of a character-class chunk.  Returns `none` for
`ErrBadPattern` (empty chunk, leading `-` or `]`, trailing escape, or nothing
left after the character).  The remainder is strictly shorter than the input. -/
def getEsc : (chunk : Str) → Option (Char × {rest : Str // rest.length < chunk.length})
  | [] => none
  | c :: rest =>
    if c = '-' ∨ c = ']' then none
    else if c = '\\' then
      match rest with
      | [] => none
      | d :: r =>
        if r = [] then none
        else some (d, ⟨r, by simp only [List.length_cons]; omega⟩)
    else if rest = [] then none
    else some (c, ⟨rest, by simp only [List.length_cons]; omega⟩)

/-- Models the character-class range loop of `matchChunk` in Go
`path/filepath/match.go`: parses `{ character-range }  ']'` from `chunk`,
accumulating whether the name character `r` fell in any range (`matched`) and
how many ranges were seen (`nrange`; the closing `]` is only recognised after
at least one range).  Returns `none` for `ErrBadPattern`. -/
def parseRanges (r : Char) : (chunk : Str) → Bool → Nat →
    Option (Bool × {rest : Str // rest.length < chunk.length})
  | chunk, matched, nrange =>
    if h : chunk.head? = some ']' ∧ 0 < nrange then
      some (matched, ⟨chunk.tail, by
        cases chunk with
        | nil => simp at h
        | cons a t => simp only [List.tail_cons, List.length_cons]; omega⟩)
    else
      match getEsc chunk with
      | none => none
      | some (lo, ⟨rest1, h1⟩) =>
        if hd : rest1.head? = some '-' then
          (match getEsc rest1.tail with
           | none => none
           | some (hi, ⟨rest3, h3⟩) =>
             (parseRanges r rest3 (matched || decide (lo ≤ r ∧ r ≤ hi)) (nrange + 1)).map
               (fun p => (p.1, ⟨p.2.1, by
                 have hp := p.2.2
                 have ht : rest1.tail.length < rest1.length := by
                   cases rest1 with
                   | nil => simp at hd
                   | cons a t => simp only [List.tail_cons, List.length_cons]; omega
                 omega⟩)))
        else
          (parseRanges r rest1 (matched || decide (lo ≤ r ∧ r ≤ lo)) (nrange + 1)).map
            (fun p => (p.1, ⟨p.2.1, by have hp := p.2.2; omega⟩))
termination_by chunk => chunk.length
decreasing_by
  · have ht : rest1.tail.length < rest1.length := by
      cases rest1 with
      | nil => simp at hd
      | cons a t => simp only [List.tail_cons, List.length_cons]; omega
    omega
  · omega

/-- Models Go `path/filepath.Match(pattern, name)` as a boolean (the code
discards the `ErrBadPattern` error, so a malformed pattern yields `false`):
`*` matches any sequence of non-separator characters, `?` any single
non-separator character, `[...]`/`[^...]` a character class, `\\c` the literal
`c`, and any other character itself; the whole name must be consumed. -/
def globMatch : Str → Str → Bool
  | [], n => n.isEmpty
  | '*' :: p, n =>
    globMatch p n ||
      match n with
      | [] => false
      | c :: n' => decide (c ≠ '/') && globMatch ('*' :: p) n'
  | '?' :: p, n =>
    (match n with
     | [] => false
     | c :: n' => decide (c ≠ '/') && globMatch p n')
  | '[' :: p, n =>
    (match n with
     | [] => false
     | c :: n' =>
       match p with
       | '^' :: q =>
         (match parseRanges c q false 0 with
          | none => false
          | some (m, ⟨rest, _⟩) => (m != true) && globMatch rest n')
       | q =>
         (match parseRanges c q false 0 with
          | none => false
          | some (m, ⟨rest, _⟩) => (m != false) && globMatch rest n'))
  | '\\' :: p, n =>
    (match p, n with
     | c :: p', d :: n' => decide (c = d) && globMatch p' n'
     | _, _ => false)
  | c :: p, n =>
    (match n with
     | [] => false
     | d :: n' => decide (c = d) && globMatch p n')

/-- `CacheConfig` from `internal/cache/types.go`.  Go `int` fields are
modelled as `Int` (the claims never exercise 64-bit overflow). -/
structure CacheConfig where
  maxAge : Int
  maxEntries : Int
  excludeFiles : List Str
  includeFiles : List Str
  adrDirs : List Str
  cleanupAfter : Int
deriving Repr, DecidableEq

/-- `DefaultCacheConfig` from `internal/cache/types.go`. -/
def DefaultCacheConfig : CacheConfig where
  maxAge := 7
  maxEntries := 100
  excludeFiles := [str "*.md", str "*.txt", str "*.rst", str "**/docs/**",
    str "**/documentation/**", str "**/.drduck/**", str "**/.git/**"]
  includeFiles := []
  adrDirs := [str "docs/adr", str "docs/adrs", str "architecture/decisions",
    str "doc/adr", str "adr"]
  cleanupAfter := 1

/-- `Fingerprinter.matchesPattern` from `internal/cache/fingerprint.go`:
`"*"` matches everything; `"**"` runs are collapsed to `"*"`; a pattern
starting `"*."` is a suffix test; any other pattern containing `"*"` is
delegated to `filepath.Match`; otherwise exact equality or plain prefix. -/
def matchesPattern (filePath pattern : Str) : Bool :=
  if pattern = str "*" then true
  else
    let pattern :=
      if strContains pattern (str "**") then replaceAll pattern (str "**") (str "*")
      else pattern
    if strStartsWith pattern (str "*.") then strEndsWith filePath (pattern.drop 1)
    else if strContains pattern (str "*") then globMatch pattern filePath
    else decide (filePath = pattern) || strStartsWith filePath pattern

/-- `Fingerprinter.shouldIncludeFile` from `internal/cache/fingerprint.go`. -/
def shouldIncludeFile (cfg : CacheConfig) (filePath : Str) : Bool :=
  if filePath = [] then true
  else if cfg.adrDirs.any (fun adrDir =>
      matchesPattern filePath (adrDir ++ str "/*") ||
        strStartsWith filePath (adrDir ++ str "/")) then false
  else if cfg.excludeFiles.any (fun pat => matchesPattern filePath pat) then false
  else if cfg.includeFiles.length > 0 then
    cfg.includeFiles.any (fun pat => matchesPattern filePath pat)
  else true

/-- The diff separator literal `" b/"` used by `filterDiff`. -/
def bSep : Str := str " b/"

/-- The newline separator used by `filterDiff`. -/
def nlSep : Str := str "\n"

/-- A line is a diff file-header line (`filterDiff`'s header test). -/
def isHeaderLine (line : Str) : Bool :=
  strStartsWith line (str "diff --git") || strStartsWith line (str "+++") ||
    strStartsWith line (str "---")

/-- The current-file update performed by `filterDiff` on a header line:
if the line contains `" b/"`, the file name is the second field of the
split on `" b/"`; otherwise the current file is unchanged. -/
def extractFileName (line currentFile : Str) : Str :=
  if strContains line bSep then
    let parts := splitOnStr bSep line
    if 1 < parts.length then parts.getD 1 currentFile else currentFile
  else currentFile

/-- The line loop of `Fingerprinter.filterDiff`: walks the split lines
carrying (currentFile, includeCurrentFile), keeping a line when the current
file is included or no file header has been seen yet. -/
def filterDiffAux (cfg : CacheConfig) : List Str → Str → Bool → List Str
  | [], _, _ => []
  | line :: rest, currentFile, includeCurrentFile =>
    let st :=
      if isHeaderLine line then
        let cf := extractFileName line currentFile
        (cf, shouldIncludeFile cfg cf)
      else (currentFile, includeCurrentFile)
    if st.2 || decide (st.1 = []) then line :: filterDiffAux cfg rest st.1 st.2
    else filterDiffAux cfg rest st.1 st.2

/-- `Fingerprinter.filterDiff` from `internal/cache/fingerprint.go`. -/
def filterDiff (cfg : CacheConfig) (diff : Str) : Str :=
  if diff = [] then []
  else joinNL (filterDiffAux cfg (splitOnStr nlSep diff) [] false)

/-- The pure tail of `Fingerprinter.getFilteredChanges`: the raw diff text
comes from git (modelled as an input); an empty diff short-circuits. -/
def getFilteredChanges (cfg : CacheConfig) (rawDiff : Str) : Str :=
  if rawDiff = [] then [] else filterDiff cfg rawDiff

/-- `ChangeFingerprint` from `internal/cache/types.go`.  The Go
`map[string]string` of per-file hashes is modelled as an association list. -/
structure ChangeFingerprint where
  files : List (Str × Str)
  commitRange : Str
  branch : Str
  timestamp : Int
deriving Repr, DecidableEq

/-- `Fingerprinter.generateFileHashes`: an empty filtered diff adds nothing;
otherwise the single synthetic key `"filtered_diff"` maps to the hex SHA-256
of the whole filtered diff (`sha` abstracts hex ∘ SHA-256). -/
def generateFileHashes (sha : Str → Str) (diff : Str) : List (Str × Str) :=
  if diff = [] then [] else [(str "filtered_diff", sha diff)]

/-- `Fingerprinter.hashFingerprint`: hashes the commit range, the branch and
then each (path, hash) pair of `fp.files` in Go map iteration order, which is
unspecified — `iterOrder` stands for that order and the theorems quantify
over every permutation of `fp.files`. -/
def hashFingerprint (sha : Str → Str) (fp : ChangeFingerprint)
    (iterOrder : List (Str × Str)) : Str :=
  sha (fp.commitRange ++ fp.branch ++ iterOrder.foldl (fun acc p => acc ++ p.1 ++ p.2) [])

/-- The pure tail of `Fingerprinter.GenerateFingerprint`: branch, commit
range and raw diff are obtained from git (modelled as inputs); the filtered
diff is hashed into the fingerprint and the overall content hash computed. -/
def generateFingerprintPure (cfg : CacheConfig) (sha : Str → Str)
    (branch commitRange rawDiff : Str) (now : Int)
    (iterOrder : List (Str × Str)) : Str × ChangeFingerprint :=
  let filteredDiff := getFilteredChanges cfg rawDiff
  let fp : ChangeFingerprint :=
    { files := generateFileHashes sha filteredDiff, commitRange := commitRange,
      branch := branch, timestamp := now }
  (hashFingerprint sha fp iterOrder, fp)

/-- Boolean lexicographic order on `Str`, used only to state the
"sorted by fileKey" part of the fingerprint-determinism claim. -/
def strLe (a b : Str) : Bool :=
  match a, b with
  | [], _ => true
  | _ :: _, [] => false
  | c :: a', d :: b' => if c = d then strLe a' b' else decide (c < d)

/-- Key-sorted copy of a file-hash association list (specification order for
the fingerprint hash pre-image). -/
def sortPairsByKey (l : List (Str × Str)) : List (Str × Str) :=
  l.insertionSort (fun p q => strLe p.1 q.1 = true)

/-- `AnalysisResult` from `internal/cache/types.go`.  `time.Time` is
modelled as `Int` nanoseconds since the epoch. -/
structure AnalysisResult where
  decision : Str
  suggestion : Str
  title : Str
  timestamp : Int
  changesAnalyzed : List Str
  commitRange : Str
  resolved : Bool
  resolvedADRID : Int
deriving Repr, DecidableEq

/-- `CacheEntry` from `internal/cache/types.go`.  The Go `*AnalysisResult`
pointer is modelled by value; no claim-relevant operation observes aliasing. -/
structure CacheEntry where
  contentHash : Str
  analysis : AnalysisResult
deriving Repr, DecidableEq

/-- `CacheMetadata` from `internal/cache/types.go`. -/
structure CacheMetadata where
  lastCleanup : Int
  totalSize : Int
  maxAge : Int
deriving Repr, DecidableEq

/-- `Cache` from `internal/cache/types.go`.  The Go
`map[string]CacheEntry` is modelled as an association list; the list order
stands for Go's (unspecified) map iteration order. -/
structure Cache where
  version : Str
  entries : List (Str × CacheEntry)
  metadata : CacheMetadata
deriving Repr, DecidableEq

/-- `CacheVersion` constant from `internal/cache/storage.go`. -/
def CacheVersion : Str := str "1.0"

/-- Go map lookup `cache.Entries[hash]` on the association-list model. -/
def lookupA {α : Type} : List (Str × α) → Str → Option α
  | [], _ => none
  | (k, v) :: rest, h => if k = h then some v else lookupA rest h

/-- Go map membership test on the association-list model. -/
def containsKeyA {α : Type} (es : List (Str × α)) (h : Str) : Bool :=
  (lookupA es h).isSome

/-- Go map store `cache.Entries[hash] = v` on the association-list model:
overwrites the value at an existing key (in place), otherwise appends the
binding.  (Go map iteration order is unspecified, so any position choice is
an equally good model; theorems that depend on an order quantify over it.) -/
def insertA {α : Type} : List (Str × α) → Str → α → List (Str × α)
  | [], h, v => [(h, v)]
  | p :: rest, h, v => if p.1 = h then (h, v) :: rest else p :: insertA rest h v

/-- Go map `delete(cache.Entries, hash)` on the association-list model. -/
def eraseA {α : Type} (es : List (Str × α)) (h : Str) : List (Str × α) :=
  es.filter (fun p => ¬ p.1 = h)

/-- The Go-map invariant: keys are distinct. -/
def keysNodup {α : Type} (es : List (Str × α)) : Prop :=
  (es.map Prod.fst).Nodup

instance {α : Type} [DecidableEq α] (es : List (Str × α)) :
    Decidable (keysNodup es) :=
  inferInstanceAs (Decidable (es.map Prod.fst).Nodup)

/-- The persisted cache file as seen by `Storage.Load`: missing, unreadable
(`os.ReadFile` error), unparsable (`json.Unmarshal` error), or a stored
`Cache` value (JSON (de)serialisation of a well-formed value is modelled as
the identity). -/
inductive FileState where
  | absent
  | readError
  | unparsable
  | stored (c : Cache)
deriving Repr, DecidableEq

/-- `Storage.createEmptyCache` from `internal/cache/storage.go`. -/
def createEmptyCache (cfg : CacheConfig) (now : Int) : Cache where
  version := CacheVersion
  entries := []
  metadata := { lastCleanup := now, totalSize := 0, maxAge := cfg.maxAge }

/-- `Storage.migrateCache` from `internal/cache/storage.go`: currently just
starts over with an empty cache. -/
def migrateCache (cfg : CacheConfig) (now : Int) (_cache : Cache) : Cache :=
  createEmptyCache cfg now

/-- `Storage.Load` from `internal/cache/storage.go`.  A missing file and an
unparsable file both yield a fresh empty cache with no error; a read failure
is an error; a version mismatch goes through `migrateCache`.  (The
`os.MkdirAll` failure path is not modelled.) -/
def Load (cfg : CacheConfig) (now : Int) (fs : FileState) : Except Str Cache :=
  match fs with
  | .absent => .ok (createEmptyCache cfg now)
  | .readError => .error (str "failed to read cache file")
  | .unparsable => .ok (createEmptyCache cfg now)
  | .stored c => if c.version ≠ CacheVersion then .ok (migrateCache cfg now c) else .ok c

/-- `Storage.Save` from `internal/cache/storage.go`: updates the size
metadata and writes the whole table.  (Disk-write failure is not modelled;
no claim concerns it.) -/
def Save (cache : Cache) : FileState :=
  .stored { cache with
    metadata := { cache.metadata with totalSize := (cache.entries.length : Int) } }

/-- Nanoseconds in a Go `time.Hour`. -/
def hourNs : Int := 3600000000000

/-- `Storage.isExpired`: `time.Since(analysis.Timestamp) > maxAge*24h`. -/
def isExpired (cfg : CacheConfig) (now : Int) (analysis : AnalysisResult) : Bool :=
  decide (now - analysis.timestamp > cfg.maxAge * 24 * hourNs)

/-- One inner-loop pass of the bubble sort in `cleanupOldEntries`, bounded by
the Go loop's comparison count `n-i-1`: adjacent entries are swapped when the
left one's timestamp is strictly later (`Time.After`). -/
def bpassUpto : Nat → List (Str × CacheEntry) → List (Str × CacheEntry)
  | 0, l => l
  | _ + 1, [] => []
  | _ + 1, [x] => [x]
  | k + 1, x :: y :: rest =>
    if y.2.analysis.timestamp < x.2.analysis.timestamp then y :: bpassUpto k (x :: rest)
    else x :: bpassUpto k (y :: rest)

/-- The outer loop of the bubble sort in `cleanupOldEntries`: passes with
comparison bounds `n-1, n-2, …, 1`. -/
def bubblePasses : Nat → List (Str × CacheEntry) → List (Str × CacheEntry)
  | 0, l => l
  | b + 1, l => bubblePasses b (bpassUpto (b + 1) l)

/-- The (oldest-first) bubble sort of `cleanupOldEntries`, applied to the
entry list in (arbitrary) map iteration order. -/
def sortEntries (l : List (Str × CacheEntry)) : List (Str × CacheEntry) :=
  bubblePasses (l.length - 1) l

/-- The eviction loop of `cleanupOldEntries`: while the table is over
capacity and sorted entries remain, delete the sorted head's key. -/
def removeLoop (cfg : CacheConfig) :
    List (Str × CacheEntry) → List (Str × CacheEntry) → List (Str × CacheEntry)
  | [], m => m
  | p :: rest, m =>
    if (m.length : Int) > cfg.maxEntries then removeLoop cfg rest (eraseA m p.1)
    else m

/-- `Storage.cleanupOldEntries` from `internal/cache/storage.go`; the entry
list order models the map iteration order used to build the sort input. -/
def cleanupOldEntries (cfg : CacheConfig)
    (entries : List (Str × CacheEntry)) : List (Str × CacheEntry) :=
  if (entries.length : Int) ≤ cfg.maxEntries then entries
  else removeLoop cfg (sortEntries entries) entries

/-- `Storage.Get` from `internal/cache/storage.go`: load, look up, evict on
the spot when expired (best-effort re-save), otherwise return the analysis. -/
def Get (cfg : CacheConfig) (now : Int) (fs : FileState) (hash : Str) :
    (Option AnalysisResult × Bool) × FileState :=
  match Load cfg now fs with
  | .error _ => ((none, false), fs)
  | .ok cache =>
    match lookupA cache.entries hash with
    | none => ((none, false), fs)
    | some entry =>
      if isExpired cfg now entry.analysis then
        ((none, false), Save { cache with entries := eraseA cache.entries hash })
      else ((some entry.analysis, true), fs)

/-- `Storage.Put` from `internal/cache/storage.go`: load, insert/overwrite,
clean up when over capacity, save. -/
def Put (cfg : CacheConfig) (now : Int) (fs : FileState) (hash : Str)
    (analysis : AnalysisResult) : Except Str Unit × FileState :=
  match Load cfg now fs with
  | .error e => (.error e, fs)
  | .ok cache =>
    let entry : CacheEntry := { contentHash := hash, analysis := analysis }
    let entries1 := insertA cache.entries hash entry
    let entries2 :=
      if (entries1.length : Int) > cfg.maxEntries then cleanupOldEntries cfg entries1
      else entries1
    (.ok (), Save { cache with entries := entries2 })

/-- `Storage.MarkResolved` from `internal/cache/storage.go`: load, require
the entry, set resolved and the resolving ADR id, save. -/
def MarkResolved (cfg : CacheConfig) (now : Int) (fs : FileState) (hash : Str)
    (adrID : Int) : Except Str Unit × FileState :=
  match Load cfg now fs with
  | .error e => (.error e, fs)
  | .ok cache =>
    match lookupA cache.entries hash with
    | none => (.error (str "cache entry not found for hash: " ++ hash), fs)
    | some entry =>
      let entry' := { entry with
        analysis := { entry.analysis with resolved := true, resolvedADRID := adrID } }
      (.ok (), Save { cache with entries := insertA cache.entries hash entry' })

/-- The statistics assembled by `Manager.GetCacheStats` (the Go
`map[string]interface{}` is modelled as a struct of its entries). -/
structure CacheStats where
  totalEntries : Nat
  version : Str
  lastCleanup : Int
  resolvedEntries : Nat
  unresolvedEntries : Nat
  maxAgeDays : Int
  maxEntries : Int
deriving Repr, DecidableEq

/-- `Manager.GetCacheStats` from `internal/cache/manager.go`. -/
def GetCacheStats (cfg : CacheConfig) (now : Int) (fs : FileState) :
    Except Str CacheStats :=
  match Load cfg now fs with
  | .error e => .error e
  | .ok cache =>
    .ok { totalEntries := cache.entries.length
          version := cache.version
          lastCleanup := cache.metadata.lastCleanup
          resolvedEntries := (cache.entries.filter (fun p => p.2.analysis.resolved)).length
          unresolvedEntries := (cache.entries.filter (fun p => ¬ p.2.analysis.resolved)).length
          maxAgeDays := cfg.maxAge
          maxEntries := cfg.maxEntries }

/-- `Manager.GetAnalysis` from `internal/cache/manager.go`, with the
fingerprint hash of the current changes passed in (fingerprinting itself
shells out to git): a storage miss or a resolved entry is reported as
found = false. -/
def managerGetAnalysis (cfg : CacheConfig) (now : Int) (fs : FileState)
    (hash : Str) : (Option AnalysisResult × Bool) × FileState :=
  let r := Get cfg now fs hash
  match r.1 with
  | (a?, found) =>
    if found = false then ((none, false), r.2)
    else
      match a? with
      | some a => if a.resolved then ((none, false), r.2) else ((some a, true), r.2)
      | none => ((none, false), r.2)

/-- The `AnalysisResult` value built by `Manager.StoreAnalysis` for the
fingerprint of the current changes: the analyzed-file list is every key of
the fingerprint's file map except the synthetic `"filtered_diff"` key. -/
def storedAnalysis (fp : ChangeFingerprint) (decision suggestion title : Str)
    (now : Int) : AnalysisResult where
  decision := decision
  suggestion := suggestion
  title := title
  timestamp := now
  changesAnalyzed := (fp.files.map Prod.fst).filter (fun k => ¬ k = str "filtered_diff")
  commitRange := fp.commitRange
  resolved := false
  resolvedADRID := 0

/-- `Manager.StoreAnalysis` from `internal/cache/manager.go`, with the git
inputs of `GenerateFingerprint` (branch, commit range, raw diff) passed in. -/
def managerStoreAnalysis (cfg : CacheConfig) (sha : Str → Str) (now : Int)
    (fs : FileState) (branch commitRange rawDiff : Str)
    (iterOrder : List (Str × Str)) (decision suggestion title : Str) :
    Except Str Unit × FileState :=
  let (contentHash, fp) :=
    generateFingerprintPure cfg sha branch commitRange rawDiff now iterOrder
  Put cfg now fs contentHash (storedAnalysis fp decision suggestion title now)

/-! ## Association-list (Go map) lemmas -/

@[simp] theorem lookupA_nil {α : Type} (k : Str) :
    lookupA ([] : List (Str × α)) k = none := rfl

@[simp] theorem lookupA_cons {α : Type} (k' k : Str) (v : α) (es : List (Str × α)) :
    lookupA ((k', v) :: es) k = if k' = k then some v else lookupA es k := rfl

@[simp] theorem insertA_nil {α : Type} (k : Str) (v : α) :
    insertA ([] : List (Str × α)) k v = [(k, v)] := rfl

@[simp] theorem insertA_cons {α : Type} (k' k : Str) (v' v : α) (es : List (Str × α)) :
    insertA ((k', v') :: es) k v =
      if k' = k then (k, v) :: es else (k', v') :: insertA es k v := rfl

theorem contains_lookupA {α : Type} (es : List (Str × α)) (k : Str) :
    containsKeyA es k = false ↔ lookupA es k = none := by
  unfold containsKeyA
  cases lookupA es k <;> simp

theorem lookupA_insertA {α : Type} (es : List (Str × α)) (k k' : Str) (v : α) :
    lookupA (insertA es k v) k' = if k = k' then some v else lookupA es k' := by
  induction es with
  | nil => by_cases hk : k = k' <;> simp [insertA, lookupA, hk]
  | cons p rest ih =>
    obtain ⟨pk, pv⟩ := p
    by_cases hp : pk = k
    · subst hp
      by_cases hk : pk = k'
      · subst hk
        simp [insertA, lookupA]
      · simp [insertA, lookupA, hk]
    · by_cases hpk : pk = k'
      · subst hpk
        have hk : ¬ k = pk := fun he => hp he.symm
        simp [insertA, lookupA, hp, hk]
      · simp [insertA, lookupA, hp, hpk, ih]

theorem lookupA_insertA_self {α : Type} (es : List (Str × α)) (k : Str) (v : α) :
    lookupA (insertA es k v) k = some v := by
  simp [lookupA_insertA]

theorem lookupA_eraseA {α : Type} (es : List (Str × α)) (k k' : Str) :
    lookupA (eraseA es k) k' = if k' = k then none else lookupA es k' := by
  induction es with
  | nil => by_cases hk : k' = k <;> simp [eraseA, lookupA, hk]
  | cons p rest ih =>
    by_cases hp : p.1 = k
    · have hstep : eraseA (p :: rest) k = eraseA rest k := by
        simp [eraseA, hp]
      rw [hstep, ih]
      by_cases hk : k' = k
      · simp [hk]
      · have hpk : ¬ p.1 = k' := fun he => hk (he ▸ hp ▸ rfl)
        simp [hk, lookupA, hpk]
    · have hstep : eraseA (p :: rest) k = p :: eraseA rest k := by
        simp [eraseA, hp]
      rw [hstep]
      by_cases hpk : p.1 = k'
      · have hk : ¬ k' = k := fun he => hp (he ▸ hpk)
        simp [lookupA, hpk, hk]
      · simp only [lookupA, hpk, if_neg, not_false_iff]
        exact ih

theorem lookupA_eq_none_iff {α : Type} (es : List (Str × α)) (k : Str) :
    lookupA es k = none ↔ k ∉ es.map Prod.fst := by
  induction es with
  | nil => simp [lookupA]
  | cons p rest ih =>
    obtain ⟨pk, pv⟩ := p
    by_cases hp : pk = k
    · subst hp
      simp only [lookupA_cons, if_pos rfl, List.map_cons, List.mem_cons]
      constructor
      · intro h
        exact absurd h (by simp)
      · intro h
        exact absurd (Or.inl trivial) h
    · simp only [lookupA_cons, hp, if_neg, not_false_iff, List.map_cons, List.mem_cons, ih]
      constructor
      · intro h hmem
        rcases hmem with he | hm
        · exact hp he.symm
        · exact h hm
      · intro h hm
        exact h (Or.inr hm)

theorem keys_insertA {α : Type} (es : List (Str × α)) (k : Str) (v : α) :
    (insertA es k v).map Prod.fst =
      if containsKeyA es k then es.map Prod.fst else es.map Prod.fst ++ [k] := by
  induction es with
  | nil => simp [insertA, containsKeyA, lookupA]
  | cons p rest ih =>
    obtain ⟨pk, pv⟩ := p
    by_cases hp : pk = k
    · subst hp
      simp [insertA, containsKeyA, lookupA]
    · simp [insertA, containsKeyA, lookupA, hp, ih]
      split <;> rfl

theorem keysNodup_insertA {α : Type} (es : List (Str × α)) (k : Str) (v : α)
    (h : keysNodup es) : keysNodup (insertA es k v) := by
  unfold keysNodup at h ⊢
  rw [keys_insertA]
  by_cases hc : containsKeyA es k
  · rw [if_pos hc]
    exact h
  · rw [if_neg hc]
    have hk : k ∉ es.map Prod.fst :=
      (lookupA_eq_none_iff es k).mp
        ((contains_lookupA es k).mp (by simpa using hc))
    rw [List.nodup_append]
    refine ⟨h, List.nodup_singleton _, ?_⟩
    intro a ha hb
    rw [List.mem_singleton] at hb
    exact hk (hb ▸ ha)

theorem keysNodup_eraseA {α : Type} (es : List (Str × α)) (k : Str)
    (h : keysNodup es) : keysNodup (eraseA es k) := by
  unfold keysNodup at h ⊢
  exact h.sublist ((List.filter_sublist es).map Prod.fst)

theorem eraseA_cons_ne {α : Type} (k' k : Str) (v : α) (es : List (Str × α))
    (h : ¬ k' = k) : eraseA ((k', v) :: es) k = (k', v) :: eraseA es k := by
  unfold eraseA
  rw [List.filter_cons_of_pos]
  simp [h]

theorem eraseA_cons_eq {α : Type} (k' k : Str) (v : α) (es : List (Str × α))
    (h : k' = k) : eraseA ((k', v) :: es) k = eraseA es k := by
  unfold eraseA
  rw [List.filter_cons_of_neg]
  simp [h]

theorem eraseA_eq_self {α : Type} (es : List (Str × α)) (k : Str)
    (h : lookupA es k = none) : eraseA es k = es := by
  induction es with
  | nil => rfl
  | cons p rest ih =>
    obtain ⟨pk, pv⟩ := p
    by_cases hp : pk = k
    · simp [hp] at h
    · simp only [lookupA_cons, hp, if_neg, not_false_iff] at h
      rw [eraseA_cons_ne pk k pv rest hp, ih h]

theorem length_eraseA {α : Type} (es : List (Str × α)) (k : Str)
    (hnd : keysNodup es) (hc : containsKeyA es k = true) :
    (eraseA es k).length + 1 = es.length := by
  induction es with
  | nil => simp [containsKeyA] at hc
  | cons p rest ih =>
    obtain ⟨pk, pv⟩ := p
    unfold keysNodup at hnd
    simp only [List.map_cons, List.nodup_cons] at hnd
    by_cases hp : pk = k
    · subst hp
      have hrest : lookupA rest pk = none :=
        (lookupA_eq_none_iff rest pk).mpr hnd.1
      rw [eraseA_cons_eq pk pk pv rest rfl, eraseA_eq_self rest pk hrest]
      rfl
    · have hcr : containsKeyA rest k = true := by
        simpa [containsKeyA, hp] using hc
      rw [eraseA_cons_ne pk k pv rest hp]
      simp only [List.length_cons]
      rw [ih hnd.2 hcr]

/-- The entry update performed by `Storage.MarkResolved`. -/
def resolveEntry (entry : CacheEntry) (adrID : Int) : CacheEntry :=
  { entry with analysis :=
    { entry.analysis with resolved := true, resolvedADRID := adrID } }

/-! ## Storage-level lemmas -/

theorem load_ok_version (cfg : CacheConfig) (now : Int) (fs : FileState)
    (cache : Cache) (h : Load cfg now fs = .ok cache) :
    cache.version = CacheVersion := by
  cases fs with
  | absent => cases h; rfl
  | readError => cases h
  | unparsable => cases h; rfl
  | stored c =>
    by_cases hv : c.version = CacheVersion
    · simp only [Load, hv, ne_eq, not_true_eq_false, if_neg, not_false_iff] at h
      cases h
      exact hv
    · simp only [Load, ne_eq, hv, not_false_iff, if_pos] at h
      cases h
      rfl

theorem load_save (cfg : CacheConfig) (now : Int) (cache : Cache)
    (h : cache.version = CacheVersion) :
    Load cfg now (Save cache) =
      .ok { cache with metadata :=
        { cache.metadata with totalSize := (cache.entries.length : Int) } } := by
  simp [Load, Save, h]

/-! ## Claim C8: corrupt or version-mismatched persisted content resets
silently to an empty cache -/

/-- **C8**: `load()` never fails on bad persisted content: an unparsable
cache file yields a fresh empty cache (current format version, no entries)
with no error, and a parsed cache whose stored format version differs from
the current one is likewise replaced by a fresh empty cache with no error. -/
theorem load_never_fails_on_bad_content (cfg : CacheConfig) (now : Int) :
    Load cfg now .unparsable = .ok (createEmptyCache cfg now) ∧
    ∀ c : Cache, c.version ≠ CacheVersion →
      Load cfg now (.stored c) = .ok (createEmptyCache cfg now) := by
  refine ⟨rfl, ?_⟩
  intro c hv
  simp [Load, hv, migrateCache]

/-- Witness for C8 at a concrete mismatched version. -/
theorem load_never_fails_on_bad_content_witness :
    Load DefaultCacheConfig 0
        (.stored { version := str "0.9", entries := [],
                   metadata := { lastCleanup := 0, totalSize := 0, maxAge := 7 } }) =
      .ok (createEmptyCache DefaultCacheConfig 0) :=
  (load_never_fails_on_bad_content DefaultCacheConfig 0).2
    { version := str "0.9", entries := [],
      metadata := { lastCleanup := 0, totalSize := 0, maxAge := 7 } }
    (by decide)

/-! ## Claim C7: markResolved on a missing hash fails and changes nothing -/

/-- **C7**: for every cache state and every hash with no entry in the loaded
table, `markResolved(hash, recordID)` fails with the entry-not-found error
and leaves the persisted state exactly as it was (no entry added, removed,
or modified). -/
theorem markResolved_missing_entry (cfg : CacheConfig) (now : Int)
    (fs : FileState) (hash : Str) (adrID : Int) (cache : Cache)
    (hload : Load cfg now fs = .ok cache)
    (hmiss : lookupA cache.entries hash = none) :
    MarkResolved cfg now fs hash adrID =
      (.error (str "cache entry not found for hash: " ++ hash), fs) := by
  simp [MarkResolved, hload, hmiss]

/-- Witness for C7: an empty cache file and any hash. -/
theorem markResolved_missing_entry_witness :
    MarkResolved DefaultCacheConfig 0 .absent (str "h") 1 =
      (.error (str "cache entry not found for hash: " ++ str "h"), .absent) :=
  markResolved_missing_entry DefaultCacheConfig 0 .absent (str "h") 1
    (createEmptyCache DefaultCacheConfig 0) rfl rfl

/-! ## Claim C3: resolved entries are never re-served -/

/-- **C3**: after `markResolved(hash, id)` succeeds for the fingerprint hash
of the current changes, a subsequent `getAnalysis()` for that same
fingerprint hash (at any later time) reports found = false. -/
theorem markResolved_then_getAnalysis_not_found (cfg : CacheConfig)
    (now now' : Int) (fs : FileState) (hash : Str) (adrID : Int)
    (hok : (MarkResolved cfg now fs hash adrID).1 = .ok ()) :
    (managerGetAnalysis cfg now' ((MarkResolved cfg now fs hash adrID).2) hash).1 =
      (none, false) := by
  cases hload : Load cfg now fs with
  | error e =>
    simp [MarkResolved, hload] at hok
  | ok cache =>
    cases hfound : lookupA cache.entries hash with
    | none => simp [MarkResolved, hload, hfound] at hok
    | some entry =>
      have hver := load_ok_version cfg now fs cache hload
      have hst : (MarkResolved cfg now fs hash adrID).2 =
          Save { cache with entries := insertA cache.entries hash (resolveEntry entry adrID) } := by
        simp [MarkResolved, hload, hfound, resolveEntry]
      rw [hst]
      rw [managerGetAnalysis]
      have hload2 := load_save cfg now'
        { cache with entries := insertA cache.entries hash (resolveEntry entry adrID) } hver
      simp only [Get, hload2, lookupA_insertA_self]
      by_cases hexp : isExpired cfg now' (resolveEntry entry adrID).analysis
      · simp [hexp]
      · simp only [hexp, Bool.false_eq_true, if_neg, not_false_iff]
        simp [resolveEntry]

/-- Witness for C3: mark the only entry of a one-entry cache resolved, then
look it up again. -/
theorem markResolved_then_getAnalysis_not_found_witness :
    (managerGetAnalysis DefaultCacheConfig 0
      ((MarkResolved DefaultCacheConfig 0
        (.stored ⟨str "1.0",
                  [(str "h", ⟨str "h",
                    ⟨str "yes", str "s", str "t", 0, [], str "cr", false, 0⟩⟩)],
                  ⟨0, 1, 7⟩⟩)
        (str "h") 4).2) (str "h")).1 = (none, false) :=
  markResolved_then_getAnalysis_not_found DefaultCacheConfig 0 0 _ (str "h") 4 rfl

/-! ## Claim C10: stored analyses never record analyzed paths -/

/-- **C10**: every `AnalysisResult` written by `storeAnalysis` has an empty
analyzed-paths list: the fingerprint's file map holds at most the synthetic
`"filtered_diff"` key, which `storeAnalysis` filters out.  The first
conjunct pins down that `storeAnalysis` writes exactly this value. -/
theorem storeAnalysis_empty_changesAnalyzed (cfg : CacheConfig)
    (sha : Str → Str) (now : Int) (fs : FileState)
    (branch commitRange rawDiff : Str) (iterOrder : List (Str × Str))
    (decision suggestion title : Str) :
    managerStoreAnalysis cfg sha now fs branch commitRange rawDiff iterOrder
        decision suggestion title =
      Put cfg now fs
        (generateFingerprintPure cfg sha branch commitRange rawDiff now iterOrder).1
        (storedAnalysis
          (generateFingerprintPure cfg sha branch commitRange rawDiff now iterOrder).2
          decision suggestion title now) ∧
    (storedAnalysis
        (generateFingerprintPure cfg sha branch commitRange rawDiff now iterOrder).2
        decision suggestion title now).changesAnalyzed = [] := by
  refine ⟨rfl, ?_⟩
  simp only [generateFingerprintPure, storedAnalysis, generateFileHashes]
  by_cases hd : getFilteredChanges cfg rawDiff = []
  · simp [hd]
  · simp [hd]

/-! ## Claim C4: expired entries are evicted on access and leave the
statistics -/

/-- **C4**: for every loadable cache state and every hash whose stored
entry's age exceeds the TTL, `get(hash)` returns not-found, the persisted
table is re-saved without the entry on the spot, and statistics taken on
the resulting state (at any time) count one entry fewer. -/
theorem get_expired_evicts (cfg : CacheConfig) (now : Int) (fs : FileState)
    (hash : Str) (cache : Cache) (entry : CacheEntry)
    (hload : Load cfg now fs = .ok cache)
    (hnodup : keysNodup cache.entries)
    (hfound : lookupA cache.entries hash = some entry)
    (hexp : now - entry.analysis.timestamp > cfg.maxAge * 24 * hourNs) :
    (Get cfg now fs hash).1 = (none, false) ∧
    (Get cfg now fs hash).2 = Save { cache with entries := eraseA cache.entries hash } ∧
    ∀ now', (GetCacheStats cfg now' (Get cfg now fs hash).2).map CacheStats.totalEntries =
      .ok (cache.entries.length - 1) := by
  have hexpired : isExpired cfg now entry.analysis = true := by
    simpa [isExpired] using hexp
  have hget1 : (Get cfg now fs hash).1 = (none, false) := by
    simp [Get, hload, hfound, hexpired]
  have hget2 : (Get cfg now fs hash).2 =
      Save { cache with entries := eraseA cache.entries hash } := by
    simp [Get, hload, hfound, hexpired]
  refine ⟨hget1, hget2, ?_⟩
  intro now'
  rw [hget2]
  have hver : cache.version = CacheVersion := load_ok_version cfg now fs cache hload
  have hload2 := load_save cfg now'
    { cache with entries := eraseA cache.entries hash } hver
  have hlen : (eraseA cache.entries hash).length + 1 = cache.entries.length :=
    length_eraseA cache.entries hash hnodup (by simp [containsKeyA, hfound])
  simp only [GetCacheStats, hload2, Except.map]
  congr 1
  omega

/-- Witness for C4: a one-entry cache whose entry is 700000 seconds old
with a 7-day TTL. -/
theorem get_expired_evicts_witness :
    (Get DefaultCacheConfig 700000000000000
        (.stored ⟨str "1.0",
          [(str "h", ⟨str "h", ⟨str "yes", str "s", str "t", 0, [], str "cr", false, 0⟩⟩)],
          ⟨0, 1, 7⟩⟩) (str "h")).1 = (none, false) ∧
    (GetCacheStats DefaultCacheConfig 0
        (Get DefaultCacheConfig 700000000000000
          (.stored ⟨str "1.0",
            [(str "h", ⟨str "h", ⟨str "yes", str "s", str "t", 0, [], str "cr", false, 0⟩⟩)],
            ⟨0, 1, 7⟩⟩) (str "h")).2).map CacheStats.totalEntries = .ok 0 := by
  have h := get_expired_evicts DefaultCacheConfig 700000000000000
    (.stored ⟨str "1.0",
      [(str "h", ⟨str "h", ⟨str "yes", str "s", str "t", 0, [], str "cr", false, 0⟩⟩)],
      ⟨0, 1, 7⟩⟩) (str "h")
    ⟨str "1.0",
      [(str "h", ⟨str "h", ⟨str "yes", str "s", str "t", 0, [], str "cr", false, 0⟩⟩)],
      ⟨0, 1, 7⟩⟩
    ⟨str "h", ⟨str "yes", str "s", str "t", 0, [], str "cr", false, 0⟩⟩
    rfl (by decide) rfl (by decide)
  exact ⟨h.1, h.2.2 0⟩

/-! ## Claim C6: get after put — fails as stated, holds without expiry and
eviction -/

/-- Counterexample to C6 as stated: with the default configuration (7-day
TTL), putting a result whose timestamp is already older than the TTL and
reading it back at the same instant yields not-found, not `(result, true)`:
the claim does not hold for *every* result. -/
theorem get_after_put_counterexample :
    (Get DefaultCacheConfig 700000000000000
        (Put DefaultCacheConfig 700000000000000 .absent (str "h")
          ⟨str "yes", str "s", str "t", 0, [], str "cr", false, 0⟩).2 (str "h")).1 ≠
      (some ⟨str "yes", str "s", str "t", 0, [], str "cr", false, 0⟩, true) := by
  decide

/-- **C6 (amended)**: `get(hash)` immediately after `put(hash, result)`
returns `(result, true)` provided the insertion leaves the table within
`maxEntries` (so no eviction runs) and the result is not already expired at
the read time. -/
theorem get_after_put_roundtrip (cfg : CacheConfig) (now : Int) (fs : FileState)
    (hash : Str) (r : AnalysisResult) (cache : Cache)
    (hload : Load cfg now fs = .ok cache)
    (hcap : ((insertA cache.entries hash ⟨hash, r⟩).length : Int) ≤ cfg.maxEntries)
    (hfresh : now - r.timestamp ≤ cfg.maxAge * 24 * hourNs) :
    (Get cfg now (Put cfg now fs hash r).2 hash).1 = (some r, true) := by
  have hput : (Put cfg now fs hash r).2 =
      Save { cache with entries := insertA cache.entries hash ⟨hash, r⟩ } := by
    simp only [Put, hload]
    rw [if_neg (by omega)]
  rw [hput]
  have hver : cache.version = CacheVersion := load_ok_version cfg now fs cache hload
  have hload2 := load_save cfg now
    { cache with entries := insertA cache.entries hash ⟨hash, r⟩ } hver
  have hnexp : isExpired cfg now (⟨hash, r⟩ : CacheEntry).analysis = false := by
    simp [isExpired]
    omega
  simp [Get, hload2, lookupA_insertA_self, hnexp]

/-- Witness for the amended C6: a fresh result in an empty cache. -/
theorem get_after_put_roundtrip_witness :
    (Get DefaultCacheConfig 100 (Put DefaultCacheConfig 100 .absent (str "h")
        ⟨str "yes", str "s", str "t", 100, [], str "cr", false, 0⟩).2 (str "h")).1 =
      (some ⟨str "yes", str "s", str "t", 100, [], str "cr", false, 0⟩, true) :=
  get_after_put_roundtrip DefaultCacheConfig 100 .absent (str "h")
    ⟨str "yes", str "s", str "t", 100, [], str "cr", false, 0⟩
    (createEmptyCache DefaultCacheConfig 100) rfl (by decide) (by decide)

/-! ## Claim C9: star-free patterns — plain prefix match, no directory
boundary -/

theorem isPrefixOf_subset (p s : Str) (h : p.isPrefixOf s = true) : p ⊆ s :=
  (List.isPrefixOf_iff_prefix.mp h).subset

theorem strContains_subset (s pat : Str) (h : strContains s pat = true) :
    ∀ c ∈ pat, c ∈ s := by
  induction s with
  | nil =>
    unfold strContains at h
    by_cases hp : pat.isPrefixOf ([] : Str)
    · intro c hc
      exact absurd hc (by
        have := isPrefixOf_subset pat [] hp
        intro hmem
        exact absurd (this hmem) (List.not_mem_nil c))
    · simp [hp] at h
  | cons a rest ih =>
    unfold strContains at h
    by_cases hp : pat.isPrefixOf (a :: rest)
    · exact fun c hc => isPrefixOf_subset pat (a :: rest) hp hc
    · simp only [hp, Bool.false_eq_true, if_neg, not_false_iff] at h
      intro c hc
      exact List.mem_cons_of_mem a (ih h c hc)

/-- Counterexample to C9 as stated: `"docsX"` matches the star-free pattern
`"docs"` although it neither equals it nor starts with `"docs/"` — the code
uses a plain string-prefix test with no directory boundary. -/
theorem matchesPattern_no_star_counterexample :
    matchesPattern (str "docsX") (str "docs") = true ∧
    ¬(str "docsX" = str "docs" ∨
      strStartsWith (str "docsX") (str "docs" ++ ['/']) = true) := by
  decide

/-- **C9 (amended)**: for every path and every pattern containing no `*`,
`matches(path, pattern)` returns true if and only if the path equals the
pattern exactly or starts with the pattern as a plain string prefix (no
directory-boundary requirement). -/
theorem matchesPattern_no_star (path pattern : Str) (h : '*' ∉ pattern) :
    matchesPattern path pattern =
      (decide (path = pattern) || strStartsWith path pattern) := by
  have h1 : ¬ pattern = str "*" := by
    intro he
    rw [he] at h
    exact h (by decide)
  have h2 : strContains pattern (str "**") = false := by
    cases hc : strContains pattern (str "**") with
    | false => rfl
    | true => exact absurd (strContains_subset pattern (str "**") hc '*' (by decide)) h
  have h3 : strStartsWith pattern (str "*.") = false := by
    cases hc : strStartsWith pattern (str "*.") with
    | false => rfl
    | true =>
      exact absurd (isPrefixOf_subset (str "*.") pattern hc (by decide)) h
  have h4 : strContains pattern (str "*") = false := by
    cases hc : strContains pattern (str "*") with
    | false => rfl
    | true => exact absurd (strContains_subset pattern (str "*") hc '*' (by decide)) h
  unfold matchesPattern
  rw [if_neg h1, h2]
  simp only [Bool.false_eq_true, if_neg, not_false_iff, h3, h4]

/-- Witness for the amended C9 at a star-free pattern. -/
theorem matchesPattern_no_star_witness :
    matchesPattern (str "docs/x") (str "docs") =
      (decide (str "docs/x" = str "docs") || strStartsWith (str "docs/x") (str "docs")) :=
  matchesPattern_no_star (str "docs/x") (str "docs") (by decide)

/-! ## Claim C5: capacity eviction removes the oldest entries and lands
exactly on maxEntries -/

/-- Timestamp order on cache-entry pairs (the eviction sort order). -/
def entryLe (a b : Str × CacheEntry) : Prop :=
  a.2.analysis.timestamp ≤ b.2.analysis.timestamp

theorem bpassUpto_cons_cons (k : Nat) (x y : Str × CacheEntry)
    (rest : List (Str × CacheEntry)) :
    bpassUpto (k + 1) (x :: y :: rest) =
      if y.2.analysis.timestamp < x.2.analysis.timestamp then
        y :: bpassUpto k (x :: rest)
      else x :: bpassUpto k (y :: rest) := rfl

theorem bpassUpto_perm : ∀ (k : Nat) (l : List (Str × CacheEntry)),
    (bpassUpto k l).Perm l := by
  intro k
  induction k with
  | zero => intro l; exact List.Perm.refl l
  | succ k ih =>
    intro l
    match l with
    | [] => exact List.Perm.refl []
    | [x] => exact List.Perm.refl [x]
    | x :: y :: rest =>
      rw [bpassUpto_cons_cons]
      by_cases hswap : y.2.analysis.timestamp < x.2.analysis.timestamp
      · rw [if_pos hswap]
        exact ((ih (x :: rest)).cons y).trans (List.Perm.swap x y rest)
      · rw [if_neg hswap]
        exact (ih (y :: rest)).cons x

theorem bpassUpto_append : ∀ (k : Nat) (u s : List (Str × CacheEntry)),
    u.length = k + 1 → bpassUpto k (u ++ s) = bpassUpto k u ++ s := by
  intro k
  induction k with
  | zero =>
    intro u s hu
    rfl
  | succ k ih =>
    intro u s hu
    match u with
    | [x] => simp at hu
    | x :: y :: u'' =>
      have hlen : (x :: u'').length = k + 1 := by
        simp only [List.length_cons] at hu ⊢
        omega
      have hlen2 : (y :: u'').length = k + 1 := by
        simp only [List.length_cons] at hu ⊢
        omega
      show bpassUpto (k + 1) (x :: y :: (u'' ++ s)) = bpassUpto (k + 1) (x :: y :: u'') ++ s
      rw [bpassUpto_cons_cons, bpassUpto_cons_cons]
      by_cases hswap : y.2.analysis.timestamp < x.2.analysis.timestamp
      · rw [if_pos hswap, if_pos hswap]
        rw [show x :: (u'' ++ s) = (x :: u'') ++ s from rfl, ih (x :: u'') s hlen]
        rfl
      · rw [if_neg hswap, if_neg hswap]
        rw [show y :: (u'' ++ s) = (y :: u'') ++ s from rfl, ih (y :: u'') s hlen2]
        rfl

theorem bpassUpto_max : ∀ (k : Nat) (u : List (Str × CacheEntry)),
    u.length = k + 1 →
    ∃ u' m, bpassUpto k u = u' ++ [m] ∧ m ∈ u ∧
      (∀ x ∈ u, entryLe x m) ∧ (∀ x ∈ u', x ∈ u) ∧ u'.length = k := by
  intro k
  induction k with
  | zero =>
    intro u hu
    match u with
    | [x] =>
      refine ⟨[], x, rfl, List.mem_singleton_self x, ?_, ?_, rfl⟩
      · intro z hz
        rw [List.mem_singleton] at hz
        subst hz
        exact le_refl _
      · intro z hz
        exact absurd hz (List.not_mem_nil z)
  | succ k ih =>
    intro u hu
    match u with
    | [x] => simp at hu
    | x :: y :: u'' =>
      by_cases hswap : y.2.analysis.timestamp < x.2.analysis.timestamp
      · have hstep : bpassUpto (k + 1) (x :: y :: u'') = y :: bpassUpto k (x :: u'') := by
          rw [bpassUpto_cons_cons, if_pos hswap]
        have hlen : (x :: u'').length = k + 1 := by
          simp only [List.length_cons] at hu ⊢
          omega
        obtain ⟨u', m, heq, hmem, hmax, hsub, hul⟩ := ih (x :: u'') hlen
        refine ⟨y :: u', m, ?_, ?_, ?_, ?_, ?_⟩
        · rw [hstep, heq]
          rfl
        · rcases List.mem_cons.mp hmem with hx | hrest
          · rw [hx]
            exact List.mem_cons_self _ _
          · exact List.mem_cons_of_mem x (List.mem_cons_of_mem y hrest)
        · intro z hz
          rcases List.mem_cons.mp hz with hzx | hz2
          · subst hzx
            exact hmax z (List.mem_cons_self z u'')
          · rcases List.mem_cons.mp hz2 with hzy | hz3
            · subst hzy
              have hxm : entryLe x m := hmax x (List.mem_cons_self x u'')
              exact le_trans (le_of_lt hswap) hxm
            · exact hmax z (List.mem_cons_of_mem x hz3)
        · intro z hz
          rcases List.mem_cons.mp hz with hzy | hz2
          · subst hzy
            exact List.mem_cons_of_mem x (List.mem_cons_self z u'')
          · rcases List.mem_cons.mp (hsub z hz2) with hzx | hz3
            · subst hzx
              exact List.mem_cons_self z (y :: u'')
            · exact List.mem_cons_of_mem x (List.mem_cons_of_mem y hz3)
        · simp only [List.length_cons, hul]
      · have hstep : bpassUpto (k + 1) (x :: y :: u'') = x :: bpassUpto k (y :: u'') := by
          rw [bpassUpto_cons_cons, if_neg hswap]
        have hlen : (y :: u'').length = k + 1 := by
          simp only [List.length_cons] at hu ⊢
          omega
        obtain ⟨u', m, heq, hmem, hmax, hsub, hul⟩ := ih (y :: u'') hlen
        refine ⟨x :: u', m, ?_, ?_, ?_, ?_, ?_⟩
        · rw [hstep, heq]
          rfl
        · exact List.mem_cons_of_mem x hmem
        · intro z hz
          rcases List.mem_cons.mp hz with hzx | hz2
          · subst hzx
            have hym : entryLe y m := hmax y (List.mem_cons_self y u'')
            exact le_trans (not_lt.mp hswap) hym
          · exact hmax z hz2
        · intro z hz
          rcases List.mem_cons.mp hz with hzx | hz2
          · subst hzx
            exact List.mem_cons_self z (y :: u'')
          · exact List.mem_cons_of_mem x (hsub z hz2)
        · simp only [List.length_cons, hul]

theorem bubblePasses_perm : ∀ (b : Nat) (l : List (Str × CacheEntry)),
    (bubblePasses b l).Perm l := by
  intro b
  induction b with
  | zero => intro l; exact List.Perm.refl l
  | succ b ih =>
    intro l
    exact (ih (bpassUpto (b + 1) l)).trans (bpassUpto_perm (b + 1) l)

theorem bubblePasses_sorted : ∀ (b : Nat) (u s : List (Str × CacheEntry)),
    u.length = b + 1 → s.Pairwise entryLe →
    (∀ x ∈ u, ∀ y ∈ s, entryLe x y) →
    (bubblePasses b (u ++ s)).Pairwise entryLe := by
  intro b
  induction b with
  | zero =>
    intro u s hu hs hdom
    match u with
    | [x] =>
      show (x :: s).Pairwise entryLe
      exact List.pairwise_cons.mpr
        ⟨fun y hy => hdom x (List.mem_singleton_self x) y hy, hs⟩
  | succ b ih =>
    intro u s hu hs hdom
    show (bubblePasses b (bpassUpto (b + 1) (u ++ s))).Pairwise entryLe
    rw [bpassUpto_append (b + 1) u s hu]
    obtain ⟨u', m, heq, hmem, hmax, hsub, hul⟩ := bpassUpto_max (b + 1) u hu
    rw [heq, List.append_assoc, List.singleton_append]
    apply ih u' (m :: s) hul
    · exact List.pairwise_cons.mpr
        ⟨fun y hy => hdom m hmem y hy, hs⟩
    · intro x hx y hy
      rcases List.mem_cons.mp hy with hym | hys
      · subst hym
        exact hmax x (hsub x hx)
      · exact hdom x (hsub x hx) y hys

theorem sortEntries_perm (l : List (Str × CacheEntry)) : (sortEntries l).Perm l :=
  bubblePasses_perm (l.length - 1) l

theorem sortEntries_sorted (l : List (Str × CacheEntry)) :
    (sortEntries l).Pairwise entryLe := by
  match l with
  | [] => exact List.Pairwise.nil
  | x :: xs =>
    have h := bubblePasses_sorted ((x :: xs).length - 1) (x :: xs) [] (by simp)
      List.Pairwise.nil (fun a _ y hy => absurd hy (List.not_mem_nil y))
    simpa [sortEntries] using h

theorem perm_cons_eraseA (m : List (Str × CacheEntry)) (p : Str × CacheEntry)
    (hnd : keysNodup m) (hp : p ∈ m) : m.Perm (p :: eraseA m p.1) := by
  induction m with
  | nil => exact absurd hp (List.not_mem_nil p)
  | cons q rest ih =>
    unfold keysNodup at hnd
    simp only [List.map_cons, List.nodup_cons] at hnd
    by_cases hqp : q = p
    · subst hqp
      have hrest : lookupA rest q.1 = none := by
        apply (lookupA_eq_none_iff rest q.1).mpr
        exact hnd.1
      rw [eraseA_cons_eq q.1 q.1 q.2 rest rfl, eraseA_eq_self rest q.1 hrest]
    · have hpr : p ∈ rest := by
        rcases List.mem_cons.mp hp with he | hr
        · exact absurd he.symm hqp
        · exact hr
      have hq1 : ¬ q.1 = p.1 := by
        intro he
        apply hnd.1
        rw [he]
        exact List.mem_map_of_mem Prod.fst hpr
      have hstep : eraseA (q :: rest) p.1 = q :: eraseA rest p.1 := by
        have := eraseA_cons_ne q.1 p.1 q.2 rest hq1
        simpa using this
      rw [hstep]
      exact ((ih hnd.2 hpr).cons q).trans (List.Perm.swap p q (eraseA rest p.1))

theorem removeLoop_perm_drop (cfg : CacheConfig) :
    ∀ (sorted m : List (Str × CacheEntry)), keysNodup m → sorted.Perm m →
    0 ≤ cfg.maxEntries →
    (removeLoop cfg sorted m).Perm
      (sorted.drop (m.length - cfg.maxEntries.toNat)) := by
  intro sorted
  induction sorted with
  | nil =>
    intro m hnd hperm hnn
    have hm : m = [] := (List.perm_nil.mp hperm.symm)
    subst hm
    simp [removeLoop]
  | cons p rest ih =>
    intro m hnd hperm hnn
    show (if (m.length : Int) > cfg.maxEntries then
        removeLoop cfg rest (eraseA m p.1) else m).Perm _
    by_cases hgt : (m.length : Int) > cfg.maxEntries
    · rw [if_pos hgt]
      have hpm : p ∈ m := hperm.subset (List.mem_cons_self p rest)
      have hconserase : m.Perm (p :: eraseA m p.1) := perm_cons_eraseA m p hnd hpm
      have hperm2 : rest.Perm (eraseA m p.1) :=
        (List.perm_cons p).mp (hperm.trans hconserase)
      have hnd2 : keysNodup (eraseA m p.1) := keysNodup_eraseA m p.1 hnd
      have hlen : (eraseA m p.1).length + 1 = m.length :=
        length_eraseA m p.1 hnd (by
          have : lookupA m p.1 ≠ none := fun hl =>
            ((lookupA_eq_none_iff m p.1).mp hl) (List.mem_map_of_mem Prod.fst hpm)
          unfold containsKeyA
          cases hl : lookupA m p.1 with
          | none => exact absurd hl this
          | some w => rfl)
      have := ih (eraseA m p.1) hnd2 hperm2 hnn
      have hM : cfg.maxEntries.toNat < m.length := by
        have : (cfg.maxEntries.toNat : Int) = cfg.maxEntries := Int.toNat_of_nonneg hnn
        omega
      have hdrop : (p :: rest).drop (m.length - cfg.maxEntries.toNat) =
          rest.drop ((eraseA m p.1).length - cfg.maxEntries.toNat) := by
        have h1 : m.length - cfg.maxEntries.toNat =
            ((eraseA m p.1).length - cfg.maxEntries.toNat) + 1 := by
          omega
        rw [h1]
        rfl
      rw [hdrop]
      exact this
    · rw [if_neg hgt]
      have hdrop : m.length - cfg.maxEntries.toNat = 0 := by
        have : (cfg.maxEntries.toNat : Int) = cfg.maxEntries := Int.toNat_of_nonneg hnn
        omega
      rw [hdrop, List.drop_zero]
      exact hperm.symm

/-- **C5**: when `put(hash, result)` pushes the table over `maxEntries`
(with a loadable state, distinct keys, and a non-negative capacity), the
saved table `kept` has exactly `maxEntries` entries, contains only entries
of the post-insert table, and every evicted entry's creation timestamp is
at most every surviving entry's timestamp (oldest evicted first). -/
theorem put_eviction_oldest (cfg : CacheConfig) (now : Int) (fs : FileState)
    (hash : Str) (r : AnalysisResult) (cache : Cache)
    (hload : Load cfg now fs = .ok cache)
    (hnodup : keysNodup cache.entries)
    (hmaxnn : 0 ≤ cfg.maxEntries)
    (hover : ((insertA cache.entries hash ⟨hash, r⟩).length : Int) > cfg.maxEntries) :
    ∃ kept,
      (Put cfg now fs hash r).2 = Save { cache with entries := kept } ∧
      (kept.length : Int) = cfg.maxEntries ∧
      (∀ q ∈ kept, q ∈ insertA cache.entries hash ⟨hash, r⟩) ∧
      (∀ p ∈ insertA cache.entries hash ⟨hash, r⟩, p ∉ kept →
        ∀ q ∈ kept, p.2.analysis.timestamp ≤ q.2.analysis.timestamp) := by
  set entries1 := insertA cache.entries hash ⟨hash, r⟩ with hentries1
  have hn1 : keysNodup entries1 := keysNodup_insertA cache.entries hash _ hnodup
  have hclean : cleanupOldEntries cfg entries1 = removeLoop cfg (sortEntries entries1) entries1 := by
    unfold cleanupOldEntries
    rw [if_neg (not_le.mpr hover)]
  refine ⟨cleanupOldEntries cfg entries1, ?_, ?_, ?_, ?_⟩
  · simp only [Put, hload]
    rw [if_pos hover]
  all_goals (
    rw [hclean]
    have hperm := removeLoop_perm_drop cfg (sortEntries entries1) entries1 hn1
      (sortEntries_perm entries1) hmaxnn
    have hslen : (sortEntries entries1).length = entries1.length :=
      (sortEntries_perm entries1).length_eq
    have hMcast : (cfg.maxEntries.toNat : Int) = cfg.maxEntries := Int.toNat_of_nonneg hmaxnn
    have hMlt : cfg.maxEntries.toNat < entries1.length := by omega)
  · have hlen := hperm.length_eq
    rw [List.length_drop] at hlen
    have : (removeLoop cfg (sortEntries entries1) entries1).length = cfg.maxEntries.toNat := by
      omega
    rw [this, hMcast]
  · intro q hq
    have hq2 : q ∈ (sortEntries entries1).drop (entries1.length - cfg.maxEntries.toNat) :=
      hperm.subset hq
    have hq3 : q ∈ sortEntries entries1 := List.drop_subset _ _ hq2
    exact (sortEntries_perm entries1).subset hq3
  · intro p hp hnotkept q hq
    have hps : p ∈ sortEntries entries1 := (sortEntries_perm entries1).symm.subset hp
    have hqd : q ∈ (sortEntries entries1).drop (entries1.length - cfg.maxEntries.toNat) :=
      hperm.subset hq
    have hpnotd : p ∉ (sortEntries entries1).drop (entries1.length - cfg.maxEntries.toNat) := by
      intro hc
      exact hnotkept (hperm.symm.subset hc)
    have hpt : p ∈ (sortEntries entries1).take (entries1.length - cfg.maxEntries.toNat) := by
      have := (List.take_append_drop (entries1.length - cfg.maxEntries.toNat)
        (sortEntries entries1)).symm
      rw [this] at hps
      rcases List.mem_append.mp hps with h | h
      · exact h
      · exact absurd h hpnotd
    have hsorted := sortEntries_sorted entries1
    have hsplit := (List.take_append_drop (entries1.length - cfg.maxEntries.toNat)
      (sortEntries entries1)).symm
    rw [hsplit] at hsorted
    have := (List.pairwise_append.mp hsorted).2.2
    exact this p hpt q hqd

/-- Witness for C5: a two-entry cache with capacity one; the older entry is
evicted and exactly one (the newer) remains. -/
theorem put_eviction_oldest_witness :
    ∃ kept,
      (Put ⟨7, 1, [], [], [], 1⟩ 100
        (.stored ⟨str "1.0",
          [(str "h1", ⟨str "h1", ⟨str "yes", str "s", str "t", 5, [], str "cr", false, 0⟩⟩)],
          ⟨0, 1, 7⟩⟩) (str "h2")
        ⟨str "yes", str "s", str "t", 50, [], str "cr", false, 0⟩).2 =
        Save { (⟨str "1.0",
          [(str "h1", ⟨str "h1", ⟨str "yes", str "s", str "t", 5, [], str "cr", false, 0⟩⟩)],
          ⟨0, 1, 7⟩⟩ : Cache) with entries := kept } ∧
      (kept.length : Int) = (1 : Int) ∧
      (∀ q ∈ kept, q ∈ insertA
        [(str "h1", ⟨str "h1", ⟨str "yes", str "s", str "t", 5, [], str "cr", false, 0⟩⟩)]
        (str "h2") ⟨str "h2", ⟨str "yes", str "s", str "t", 50, [], str "cr", false, 0⟩⟩) ∧
      (∀ p ∈ insertA
        [(str "h1", ⟨str "h1", ⟨str "yes", str "s", str "t", 5, [], str "cr", false, 0⟩⟩)]
        (str "h2") ⟨str "h2", ⟨str "yes", str "s", str "t", 50, [], str "cr", false, 0⟩⟩,
        p ∉ kept → ∀ q ∈ kept, p.2.analysis.timestamp ≤ q.2.analysis.timestamp) :=
  put_eviction_oldest ⟨7, 1, [], [], [], 1⟩ 100
    (.stored ⟨str "1.0",
      [(str "h1", ⟨str "h1", ⟨str "yes", str "s", str "t", 5, [], str "cr", false, 0⟩⟩)],
      ⟨0, 1, 7⟩⟩)
    (str "h2") ⟨str "yes", str "s", str "t", 50, [], str "cr", false, 0⟩
    ⟨str "1.0",
      [(str "h1", ⟨str "h1", ⟨str "yes", str "s", str "t", 5, [], str "cr", false, 0⟩⟩)],
      ⟨0, 1, 7⟩⟩
    rfl (by decide) (by decide) (by decide)

/-! ## Claim C1: the fingerprint content hash is deterministic -/

theorem perm_generateFileHashes (sha : Str → Str) (d : Str) (o : List (Str × Str))
    (h : o.Perm (generateFileHashes sha d)) : o = generateFileHashes sha d := by
  unfold generateFileHashes at h ⊢
  by_cases hd : d = []
  · rw [if_pos hd] at h ⊢
    exact List.perm_nil.mp h
  · rw [if_neg hd] at h ⊢
    exact List.perm_singleton.mp h

theorem sortPairsByKey_short (sha : Str → Str) (d : Str) :
    sortPairsByKey (generateFileHashes sha d) = generateFileHashes sha d := by
  unfold generateFileHashes
  by_cases hd : d = []
  · rw [if_pos hd]
    rfl
  · rw [if_neg hd]
    rfl

/-- **C1**: the fingerprint content hash is deterministic: two fingerprint
computations with byte-identical filtered diffs and identical commit-range
and branch strings produce the same content hash, whatever map iteration
orders (`o1`, `o2`) the two runs see; and that hash is the hash computed
over the commit range, the branch, and the (fileKey, fileHash) pairs of the
file map sorted by fileKey (the map holds at most one pair, so every
iteration order agrees with the sorted order). -/
theorem fingerprint_hash_deterministic (cfg1 cfg2 : CacheConfig)
    (sha : Str → Str) (cr br raw1 raw2 : Str) (t1 t2 : Int)
    (o1 o2 : List (Str × Str))
    (hfd : getFilteredChanges cfg1 raw1 = getFilteredChanges cfg2 raw2)
    (ho1 : o1.Perm (generateFileHashes sha (getFilteredChanges cfg1 raw1)))
    (ho2 : o2.Perm (generateFileHashes sha (getFilteredChanges cfg2 raw2))) :
    (generateFingerprintPure cfg1 sha br cr raw1 t1 o1).1 =
      (generateFingerprintPure cfg2 sha br cr raw2 t2 o2).1 ∧
    (generateFingerprintPure cfg1 sha br cr raw1 t1 o1).1 =
      hashFingerprint sha
        { files := generateFileHashes sha (getFilteredChanges cfg1 raw1),
          commitRange := cr, branch := br, timestamp := t1 }
        (sortPairsByKey (generateFileHashes sha (getFilteredChanges cfg1 raw1))) := by
  have he1 := perm_generateFileHashes sha _ o1 ho1
  have he2 := perm_generateFileHashes sha _ o2 ho2
  constructor
  · simp only [generateFingerprintPure, hashFingerprint]
    rw [he1, he2, hfd]
  · simp only [generateFingerprintPure, hashFingerprint]
    rw [he1, sortPairsByKey_short]

/-- Witness for C1: a one-file diff hashed with the identity in place of
SHA-256, at two different fingerprint timestamps, the iteration orders being
the file map itself. -/
theorem fingerprint_hash_deterministic_witness :
    (generateFingerprintPure DefaultCacheConfig (fun s => s) (str "main")
        (str "origin/main..HEAD") (str "diff --git a/x.go b/x.go\n+z") 1
        (generateFileHashes (fun s => s)
          (getFilteredChanges DefaultCacheConfig (str "diff --git a/x.go b/x.go\n+z")))).1 =
      (generateFingerprintPure DefaultCacheConfig (fun s => s) (str "main")
        (str "origin/main..HEAD") (str "diff --git a/x.go b/x.go\n+z") 2
        (generateFileHashes (fun s => s)
          (getFilteredChanges DefaultCacheConfig (str "diff --git a/x.go b/x.go\n+z")))).1 :=
  (fingerprint_hash_deterministic DefaultCacheConfig DefaultCacheConfig
    (fun s => s) (str "origin/main..HEAD") (str "main")
    (str "diff --git a/x.go b/x.go\n+z") (str "diff --git a/x.go b/x.go\n+z") 1 2
    _ _ rfl (List.Perm.refl _) (List.Perm.refl _)).1

/-! ## Claim C2: excluded files never affect the fingerprint hash -/

theorem splitOnStr_nil_eq (sep : Str) : splitOnStr sep [] = [[]] := by
  rw [splitOnStr]

theorem splitOnStr_cons_match (sep : Str) (c : Char) (rest : Str)
    (h : sep ≠ [] ∧ sep.isPrefixOf (c :: rest)) :
    splitOnStr sep (c :: rest) = [] :: splitOnStr sep ((c :: rest).drop sep.length) := by
  rw [splitOnStr, if_pos h]

theorem splitOnStr_cons_nomatch (sep : Str) (c : Char) (rest : Str)
    (h : ¬(sep ≠ [] ∧ sep.isPrefixOf (c :: rest))) :
    splitOnStr sep (c :: rest) =
      match splitOnStr sep rest with
      | [] => [[c]]
      | h :: t => (c :: h) :: t := by
  rw [splitOnStr, if_neg h]

theorem nl_not_isPrefixOf (c : Char) (xs : Str) (hc : ¬ c = '\n') :
    ¬ (nlSep.isPrefixOf (c :: xs) = true) := by
  intro h
  rcases List.isPrefixOf_iff_prefix.mp h with ⟨t, ht⟩
  have hhead : '\n' = c := by
    have := congrArg (fun l => l.head?) ht
    simpa [nlSep, str] using this
  exact hc hhead.symm

theorem splitOnStr_nl_append (a s : Str) (h : Str) (t : List Str) (ha : '\n' ∉ a)
    (hs : splitOnStr nlSep s = h :: t) :
    splitOnStr nlSep (a ++ s) = (a ++ h) :: t := by
  induction a with
  | nil => simpa using hs
  | cons c a' ih =>
    have hc : ¬ c = '\n' := fun he => ha (he ▸ List.mem_cons_self c a')
    have ha' : '\n' ∉ a' := fun hm => ha (List.mem_cons_of_mem c hm)
    rw [List.cons_append]
    rw [splitOnStr_cons_nomatch nlSep c (a' ++ s)
      (fun hcontra => nl_not_isPrefixOf c (a' ++ s) hc hcontra.2)]
    rw [ih ha']
    rfl

theorem splitOnStr_nl_single (l : Str) (hl : '\n' ∉ l) :
    splitOnStr nlSep l = [l] := by
  have := splitOnStr_nl_append l [] [] [] hl (splitOnStr_nil_eq nlSep)
  simpa using this

theorem splitOnStr_joinNL (ls : List Str) (hne : ls ≠ [])
    (hl : ∀ l ∈ ls, '\n' ∉ l) : splitOnStr nlSep (joinNL ls) = ls := by
  induction ls with
  | nil => exact absurd rfl hne
  | cons l ls' ih =>
    match ls' with
    | [] =>
      show splitOnStr nlSep l = [l]
      exact splitOnStr_nl_single l (hl l (List.mem_cons_self l []))
    | l2 :: ls'' =>
      have hjoin : joinNL (l :: l2 :: ls'') = l ++ ('\n' :: joinNL (l2 :: ls'')) := rfl
      rw [hjoin]
      have hstep : splitOnStr nlSep ('\n' :: joinNL (l2 :: ls'')) =
          [] :: splitOnStr nlSep (joinNL (l2 :: ls'')) := by
        rw [splitOnStr_cons_match nlSep '\n' (joinNL (l2 :: ls''))
          ⟨by decide, by simp [nlSep, str, List.isPrefixOf]⟩]
        rfl
      have hrec : splitOnStr nlSep (joinNL (l2 :: ls'')) = l2 :: ls'' := by
        apply ih (by intro hcontra; cases hcontra)
        intro x hx
        exact hl x (List.mem_cons_of_mem l hx)
      rw [splitOnStr_nl_append l ('\n' :: joinNL (l2 :: ls'')) [] (l2 :: ls'')
        (hl l (List.mem_cons_self l (l2 :: ls'')))
        (by rw [hstep, hrec])]
      simp

theorem strContains_cons_false (c : Char) (s pat : Str)
    (h1 : ¬ (pat.isPrefixOf (c :: s) = true)) (h2 : strContains s pat = false) :
    strContains (c :: s) pat = false := by
  unfold strContains
  rw [if_neg h1]
  exact h2

theorem strContains_cons_elim (c : Char) (s pat : Str)
    (h : strContains (c :: s) pat = false) :
    ¬ (pat.isPrefixOf (c :: s) = true) ∧ strContains s pat = false := by
  unfold strContains at h
  by_cases hp : pat.isPrefixOf (c :: s) = true
  · rw [if_pos hp] at h
    cases h
  · rw [if_neg hp] at h
    exact ⟨hp, h⟩

theorem splitOnStr_no_occurrence (sep s : Str) (h : strContains s sep = false) :
    splitOnStr sep s = [s] := by
  induction s with
  | nil => exact splitOnStr_nil_eq sep
  | cons c rest ih =>
    obtain ⟨hp, hrest⟩ := strContains_cons_elim c rest sep h
    rw [splitOnStr_cons_nomatch sep c rest (fun hc => hp hc.2), ih hrest]

theorem strContains_append_occurrence (x y sep : Str) (hsep : sep ≠ []) :
    strContains (x ++ (sep ++ y)) sep = true := by
  induction x with
  | nil =>
    unfold strContains
    rw [if_pos]
    exact List.isPrefixOf_iff_prefix.mpr (List.prefix_append sep y)
  | cons c x' ih =>
    unfold strContains
    by_cases hp : sep.isPrefixOf (c :: (x' ++ (sep ++ y))) = true
    · rw [List.cons_append, if_pos hp]
    · rw [List.cons_append, if_neg hp]
      exact ih

theorem isPrefixOf_cons_iff (p c : Char) (ps l : Str) :
    List.isPrefixOf (p :: ps) (c :: l) = true ↔ p = c ∧ List.isPrefixOf ps l = true := by
  show ((p == c) && List.isPrefixOf ps l) = true ↔ _
  rw [Bool.and_eq_true, beq_iff_eq]

theorem isPrefixOf_cons_ne (p c : Char) (ps l : Str) (hne : ¬ p = c) :
    ¬ (List.isPrefixOf (p :: ps) (c :: l) = true) :=
  fun h => hne ((isPrefixOf_cons_iff p c ps l).mp h).1

/-- No occurrence of `" b/"` can span the boundary between a `" b/"`-free
prefix `a` and an explicit `" b/"` separator: the separator's first two
characters are `" b"`, which cannot overlap itself shifted by one or two. -/
theorem bSep_no_span (c : Char) (a' rest : Str)
    (ha : strContains (c :: a') bSep = false) :
    ¬ (bSep.isPrefixOf ((c :: a') ++ (bSep ++ rest)) = true) := by
  intro hp
  have hp' : List.isPrefixOf (' ' :: 'b' :: '/' :: []) (c :: (a' ++ (bSep ++ rest))) = true := hp
  obtain ⟨hc, hp2⟩ := (isPrefixOf_cons_iff _ _ _ _).mp hp'
  match a' with
  | [] =>
    have hp2' : List.isPrefixOf ('b' :: '/' :: []) (' ' :: 'b' :: '/' :: rest) = true := hp2
    exact isPrefixOf_cons_ne 'b' ' ' _ _ (by decide) hp2'
  | [d] =>
    have hp2' : List.isPrefixOf ('b' :: '/' :: []) (d :: ' ' :: 'b' :: '/' :: rest) = true := hp2
    obtain ⟨hbd, hp3⟩ := (isPrefixOf_cons_iff _ _ _ _).mp hp2'
    exact isPrefixOf_cons_ne '/' ' ' _ _ (by decide) hp3
  | d :: e :: a3 =>
    have hp2' : List.isPrefixOf ('b' :: '/' :: []) (d :: e :: (a3 ++ (bSep ++ rest))) = true := hp2
    obtain ⟨hbd, hp3⟩ := (isPrefixOf_cons_iff _ _ _ _).mp hp2'
    obtain ⟨hse, -⟩ := (isPrefixOf_cons_iff _ _ _ _).mp hp3
    have hpre : bSep.isPrefixOf (c :: d :: e :: a3) = true := by
      show List.isPrefixOf (' ' :: 'b' :: '/' :: []) (c :: d :: e :: a3) = true
      apply (isPrefixOf_cons_iff _ _ _ _).mpr
      refine ⟨hc, ?_⟩
      apply (isPrefixOf_cons_iff _ _ _ _).mpr
      refine ⟨hbd, ?_⟩
      apply (isPrefixOf_cons_iff _ _ _ _).mpr
      exact ⟨hse, by simp [List.isPrefixOf]⟩
    have : strContains (c :: d :: e :: a3) bSep = true := by
      unfold strContains
      rw [if_pos hpre]
    rw [this] at ha
    cases ha

theorem splitOnStr_bSep_junction (a rest : Str) (ha : strContains a bSep = false) :
    splitOnStr bSep (a ++ (bSep ++ rest)) = a :: splitOnStr bSep rest := by
  induction a with
  | nil =>
    rw [List.nil_append]
    show splitOnStr bSep (' ' :: ('b' :: '/' :: rest)) = [] :: splitOnStr bSep rest
    rw [splitOnStr_cons_match bSep ' ' ('b' :: '/' :: rest)
      ⟨by decide, by simp [bSep, str, List.isPrefixOf]⟩]
    rfl
  | cons c a' ih =>
    have hnospan := bSep_no_span c a' rest ha
    obtain ⟨-, ha'⟩ := strContains_cons_elim c a' bSep ha
    rw [List.cons_append]
    rw [splitOnStr_cons_nomatch bSep c (a' ++ (bSep ++ rest))
      (fun hcon => hnospan (by rw [List.cons_append]; exact hcon.2))]
    rw [ih ha']

theorem extractFileName_of_junction (a p cur : Str)
    (ha : strContains a bSep = false) (hp : strContains p bSep = false) :
    extractFileName (a ++ (bSep ++ p)) cur = p := by
  unfold extractFileName
  rw [if_pos (strContains_append_occurrence a p bSep (by decide))]
  rw [splitOnStr_bSep_junction a p ha, splitOnStr_no_occurrence bSep p hp]
  rfl

theorem bSep_not_prefix_fst (c : Char) (l : Str) (h1 : ¬ (' ' : Char) = c) :
    ¬ (bSep.isPrefixOf (c :: l) = true) :=
  isPrefixOf_cons_ne ' ' c _ _ h1

theorem bSep_not_prefix_snd (c : Char) (l : Str) (h2 : ¬ ('b' : Char) = c) :
    ¬ (bSep.isPrefixOf (' ' :: c :: l) = true) := fun h => by
  obtain ⟨-, hx⟩ := (isPrefixOf_cons_iff _ _ _ _).mp h
  exact isPrefixOf_cons_ne 'b' c _ _ h2 hx

/-- The literal `"diff --git a/"` glued onto a `" b/"`-free path contains no
`" b/"`: every failure happens within the first one or two literal
characters of a candidate position. -/
theorem strContains_header_lit (p : Str) (hp : strContains p bSep = false) :
    strContains (str "diff --git a/" ++ p) bSep = false := by
  show strContains
    ('d' :: 'i' :: 'f' :: 'f' :: ' ' :: '-' :: '-' :: 'g' :: 'i' :: 't' :: ' ' :: 'a' :: '/' :: p)
    bSep = false
  apply strContains_cons_false _ _ _ (bSep_not_prefix_fst 'd' _ (by decide))
  apply strContains_cons_false _ _ _ (bSep_not_prefix_fst 'i' _ (by decide))
  apply strContains_cons_false _ _ _ (bSep_not_prefix_fst 'f' _ (by decide))
  apply strContains_cons_false _ _ _ (bSep_not_prefix_fst 'f' _ (by decide))
  apply strContains_cons_false _ _ _ (bSep_not_prefix_snd '-' _ (by decide))
  apply strContains_cons_false _ _ _ (bSep_not_prefix_fst '-' _ (by decide))
  apply strContains_cons_false _ _ _ (bSep_not_prefix_fst '-' _ (by decide))
  apply strContains_cons_false _ _ _ (bSep_not_prefix_fst 'g' _ (by decide))
  apply strContains_cons_false _ _ _ (bSep_not_prefix_fst 'i' _ (by decide))
  apply strContains_cons_false _ _ _ (bSep_not_prefix_fst 't' _ (by decide))
  apply strContains_cons_false _ _ _ (bSep_not_prefix_snd 'a' _ (by decide))
  apply strContains_cons_false _ _ _ (bSep_not_prefix_fst 'a' _ (by decide))
  apply strContains_cons_false _ _ _ (bSep_not_prefix_fst '/' _ (by decide))
  exact hp

/-- The standard `diff --git a/X b/X` header line for file `X`. -/
def headerLine (p : Str) : Str := (str "diff --git a/" ++ p) ++ (bSep ++ p)

/-- One file section of a rendered unified diff: the `diff --git` header
line followed by the section's remaining lines (the `---`/`+++` marker
lines, `index` lines and hunk lines). -/
structure DiffBlock where
  path : Str
  body : List Str
deriving Repr, DecidableEq

/-- The lines of one file section. -/
def renderBlock (b : DiffBlock) : List Str := headerLine b.path :: b.body

/-- A raw unified diff built from file sections, newline-joined. -/
def renderDiff (bs : List DiffBlock) : Str := joinNL ((bs.map renderBlock).flatten)

/-- The `+++ b/<path>` new-file marker line of a git diff section. -/
def newFileMarker (p : Str) : Str := str "+++ b/" ++ p

theorem newFileMarker_eq (p : Str) :
    newFileMarker p = str "+++" ++ (bSep ++ p) := by
  show str "+++ b/" ++ p = _
  rw [show str "+++ b/" = str "+++" ++ bSep from by decide, List.append_assoc]

/-- Well-formedness of one file section: the path is nonempty, has no
newline, and no `" b/"`; body lines have no newline and, when they look
like a header line (start with `diff --git`, `+++` or `---`), either
contain no `" b/"` (the `--- a/<path>`, `--- /dev/null`, `+++ /dev/null`
and `index` lines, and hunk content lines) or are exactly the section's own
`+++ b/<path>` marker line — so such lines re-extract the section's own
file and never change which file the filter is in.  Every git-produced
file section (modified, added or deleted file) has this shape. -/
def wfBlock (b : DiffBlock) : Prop :=
  b.path ≠ [] ∧ '\n' ∉ b.path ∧ strContains b.path bSep = false ∧
  ∀ l ∈ b.body, '\n' ∉ l ∧
    (isHeaderLine l = true →
      (strContains l bSep = false ∨ l = newFileMarker b.path))

instance (b : DiffBlock) : Decidable (wfBlock b) := by
  unfold wfBlock
  infer_instance

theorem strStartsWith_append (x y : Str) : strStartsWith (x ++ y) x = true :=
  List.isPrefixOf_iff_prefix.mpr (List.prefix_append x y)

theorem isHeaderLine_headerLine (p : Str) : isHeaderLine (headerLine p) = true := by
  have hsplit : headerLine p = str "diff --git" ++ (str " a/" ++ (p ++ (bSep ++ p))) := by
    show (str "diff --git a/" ++ p) ++ (bSep ++ p) = _
    rw [show str "diff --git a/" = str "diff --git" ++ str " a/" from by decide]
    simp [List.append_assoc]
  unfold isHeaderLine
  rw [hsplit, strStartsWith_append]
  rfl

theorem newline_not_mem_headerLine (p : Str) (hnp : '\n' ∉ p) :
    '\n' ∉ headerLine p := by
  intro h
  unfold headerLine at h
  rcases List.mem_append.mp h with h1 | h2
  · rcases List.mem_append.mp h1 with h3 | h4
    · exact absurd h3 (by decide)
    · exact hnp h4
  · rcases List.mem_append.mp h2 with h3 | h4
    · exact absurd h3 (by decide)
    · exact hnp h4

theorem headerLine_ne_nil (p : Str) : headerLine p ≠ [] := by
  intro h
  have : ('d' : Char) :: (str "iff --git a/" ++ p ++ (bSep ++ p)) = [] := h
  exact List.cons_ne_nil _ _ this

theorem extractFileName_headerLine (p cur : Str) (hp : strContains p bSep = false) :
    extractFileName (headerLine p) cur = p :=
  extractFileName_of_junction (str "diff --git a/" ++ p) p cur
    (strContains_header_lit p hp) hp

theorem extractFileName_no_bSep (l cur : Str) (h : strContains l bSep = false) :
    extractFileName l cur = cur := by
  unfold extractFileName
  rw [h]
  rfl

theorem extractFileName_newFileMarker (p cur : Str)
    (hp : strContains p bSep = false) :
    extractFileName (newFileMarker p) cur = p := by
  rw [newFileMarker_eq]
  exact extractFileName_of_junction (str "+++") p cur (by decide) hp

/-- The per-line state update of `filterDiff`'s loop (current file and its
inclusion flag). -/
def filterStep (cfg : CacheConfig) (line cur : Str) (inc : Bool) : Str × Bool :=
  if isHeaderLine line then
    (extractFileName line cur, shouldIncludeFile cfg (extractFileName line cur))
  else (cur, inc)

theorem filterDiffAux_cons (cfg : CacheConfig) (line : Str) (rest : List Str)
    (cur : Str) (inc : Bool) :
    filterDiffAux cfg (line :: rest) cur inc =
      if (filterStep cfg line cur inc).2 || decide ((filterStep cfg line cur inc).1 = []) then
        line :: filterDiffAux cfg rest (filterStep cfg line cur inc).1
          (filterStep cfg line cur inc).2
      else filterDiffAux cfg rest (filterStep cfg line cur inc).1
        (filterStep cfg line cur inc).2 := rfl

theorem filterStep_header (cfg : CacheConfig) (line cur : Str) (inc : Bool)
    (hh : isHeaderLine line = true) :
    filterStep cfg line cur inc =
      (extractFileName line cur, shouldIncludeFile cfg (extractFileName line cur)) := by
  unfold filterStep
  rw [if_pos hh]

theorem filterStep_nonheader (cfg : CacheConfig) (line cur : Str) (inc : Bool)
    (hh : ¬ isHeaderLine line = true) :
    filterStep cfg line cur inc = (cur, inc) := by
  unfold filterStep
  rw [if_neg hh]

/-- Within a file section's body, every line is kept or dropped according to
the current file's inclusion flag, and the state never changes: header-like
lines either contain no `" b/"` (leaving the current file untouched) or are
the section's own `+++ b/` marker (re-extracting the same file). -/
theorem filterDiffAux_body (cfg : CacheConfig) (body rest : List Str) (cur : Str)
    (hcur : cur ≠ []) (hcb : strContains cur bSep = false)
    (hb : ∀ l ∈ body, isHeaderLine l = true →
      (strContains l bSep = false ∨ l = newFileMarker cur)) :
    filterDiffAux cfg (body ++ rest) cur (shouldIncludeFile cfg cur) =
      (if shouldIncludeFile cfg cur = true then body else []) ++
        filterDiffAux cfg rest cur (shouldIncludeFile cfg cur) := by
  induction body with
  | nil => simp
  | cons l body' ih =>
    have hstep : filterStep cfg l cur (shouldIncludeFile cfg cur) =
        (cur, shouldIncludeFile cfg cur) := by
      by_cases hh : isHeaderLine l = true
      · rw [filterStep_header cfg l cur _ hh]
        rcases hb l (List.mem_cons_self l body') hh with hno | hmark
        · rw [extractFileName_no_bSep l cur hno]
        · rw [hmark, extractFileName_newFileMarker cur cur hcb]
      · exact filterStep_nonheader cfg l cur _ hh
    rw [List.cons_append, filterDiffAux_cons, hstep]
    have hdec : decide (cur = []) = false := decide_eq_false hcur
    have hb' : ∀ x ∈ body', isHeaderLine x = true →
        (strContains x bSep = false ∨ x = newFileMarker cur) :=
      fun x hx => hb x (List.mem_cons_of_mem l hx)
    by_cases hinc : shouldIncludeFile cfg cur = true
    · have hcond : ((cur, shouldIncludeFile cfg cur).2 ||
          decide ((cur, shouldIncludeFile cfg cur).1 = [])) = true := by
        show (shouldIncludeFile cfg cur || decide (cur = [])) = true
        rw [hinc]
        rfl
      rw [if_pos hcond]
      show l :: filterDiffAux cfg (body' ++ rest) cur (shouldIncludeFile cfg cur) = _
      rw [ih hb', if_pos hinc, if_pos hinc]
      rw [List.cons_append]
    · have hif : shouldIncludeFile cfg cur = false := by
        cases h : shouldIncludeFile cfg cur
        · rfl
        · exact absurd h hinc
      have hcond : ¬ (((cur, shouldIncludeFile cfg cur).2 ||
          decide ((cur, shouldIncludeFile cfg cur).1 = [])) = true) := by
        show ¬ ((shouldIncludeFile cfg cur || decide (cur = [])) = true)
        rw [hif, hdec]
        simp
      rw [if_neg hcond]
      show filterDiffAux cfg (body' ++ rest) cur (shouldIncludeFile cfg cur) = _
      rw [ih hb', if_neg hinc, if_neg hinc]

/-- The filter loop over rendered file sections keeps exactly the sections
of included files. -/
theorem filterDiffAux_blocks (cfg : CacheConfig) (bs : List DiffBlock) :
    ∀ (cur : Str) (inc : Bool), (∀ b ∈ bs, wfBlock b) →
    filterDiffAux cfg ((bs.map renderBlock).flatten) cur inc =
      ((bs.filter (fun b => shouldIncludeFile cfg b.path)).map renderBlock).flatten := by
  induction bs with
  | nil => intro cur inc hwf; rfl
  | cons b bs' ih =>
    intro cur inc hwf
    obtain ⟨hpne, hpnl, hpb, hbody⟩ := hwf b (List.mem_cons_self b bs')
    have hjoin : ((b :: bs').map renderBlock).flatten =
        headerLine b.path :: (b.body ++ (bs'.map renderBlock).flatten) := by
      simp [renderBlock]
    rw [hjoin, filterDiffAux_cons]
    have hstep : filterStep cfg (headerLine b.path) cur inc =
        (b.path, shouldIncludeFile cfg b.path) := by
      rw [filterStep_header cfg _ cur inc (isHeaderLine_headerLine b.path),
        extractFileName_headerLine b.path cur hpb]
    rw [hstep]
    have hdec : decide (b.path = []) = false := decide_eq_false hpne
    have hbodyeq := filterDiffAux_body cfg b.body ((bs'.map renderBlock).flatten) b.path
      hpne hpb (fun l hl => (hbody l hl).2)
    have hih := ih b.path (shouldIncludeFile cfg b.path)
      (fun b' hb' => hwf b' (List.mem_cons_of_mem b hb'))
    by_cases hinc : shouldIncludeFile cfg b.path = true
    · have hcond : ((b.path, shouldIncludeFile cfg b.path).2 ||
          decide ((b.path, shouldIncludeFile cfg b.path).1 = [])) = true := by
        show (shouldIncludeFile cfg b.path || decide (b.path = [])) = true
        rw [hinc]
        rfl
      rw [if_pos hcond]
      show headerLine b.path ::
          filterDiffAux cfg (b.body ++ (bs'.map renderBlock).flatten) b.path
            (shouldIncludeFile cfg b.path) = _
      rw [hbodyeq, hih, if_pos hinc]
      have hfil : List.filter (fun b => shouldIncludeFile cfg b.path) (b :: bs') =
          b :: List.filter (fun b => shouldIncludeFile cfg b.path) bs' := by
        simp [List.filter_cons, hinc]
      rw [hfil]
      simp [renderBlock]
    · have hcond : ¬ (((b.path, shouldIncludeFile cfg b.path).2 ||
          decide ((b.path, shouldIncludeFile cfg b.path).1 = [])) = true) := by
        show ¬ ((shouldIncludeFile cfg b.path || decide (b.path = [])) = true)
        have hif : shouldIncludeFile cfg b.path = false := by
          cases h : shouldIncludeFile cfg b.path
          · rfl
          · exact absurd h hinc
        rw [hif, hdec]
        simp
      rw [if_neg hcond]
      show filterDiffAux cfg (b.body ++ (bs'.map renderBlock).flatten) b.path
          (shouldIncludeFile cfg b.path) = _
      rw [hbodyeq, hih, if_neg hinc]
      have hif : shouldIncludeFile cfg b.path = false := by
        cases h : shouldIncludeFile cfg b.path
        · rfl
        · exact absurd h hinc
      have hfil : List.filter (fun b => shouldIncludeFile cfg b.path) (b :: bs') =
          List.filter (fun b => shouldIncludeFile cfg b.path) bs' := by
        simp [List.filter_cons, hif]
      rw [hfil]
      rfl

theorem filterDiff_renderDiff (cfg : CacheConfig) (bs : List DiffBlock)
    (hwf : ∀ b ∈ bs, wfBlock b) :
    filterDiff cfg (renderDiff bs) =
      renderDiff (bs.filter (fun b => shouldIncludeFile cfg b.path)) := by
  match bs with
  | [] => rfl
  | b :: bs' =>
    have hjoin : ((b :: bs').map renderBlock).flatten =
        headerLine b.path :: (b.body ++ (bs'.map renderBlock).flatten) := by
      simp [renderBlock]
    have hnnl : ∀ l ∈ ((b :: bs').map renderBlock).flatten, '\n' ∉ l := by
      intro l hl
      rcases List.mem_flatten.mp hl with ⟨ls, hls, hlm⟩
      rcases List.mem_map.mp hls with ⟨b', hb', hlseq⟩
      obtain ⟨hpne', hpnl', hpb', hbody'⟩ := hwf b' hb'
      rw [← hlseq] at hlm
      rcases List.mem_cons.mp hlm with he | hbm
      · rw [he]
        exact newline_not_mem_headerLine b'.path hpnl'
      · exact (hbody' l hbm).1
    have hne2 : renderDiff (b :: bs') ≠ [] := by
      unfold renderDiff
      rw [hjoin]
      intro hcontra
      have hhead : headerLine b.path = [] := by
        cases htail : b.body ++ (bs'.map renderBlock).flatten with
        | nil =>
          rw [htail] at hcontra
          exact hcontra
        | cons x t' =>
          rw [htail] at hcontra
          have hx : headerLine b.path ++ '\n' :: joinNL (x :: t') = [] := hcontra
          rcases List.append_eq_nil.mp hx with ⟨h1, h2⟩
          cases h2
      exact headerLine_ne_nil b.path hhead
    show filterDiff cfg (renderDiff (b :: bs')) = _
    unfold filterDiff
    rw [if_neg hne2]
    unfold renderDiff
    rw [splitOnStr_joinNL (((b :: bs').map renderBlock).flatten)
      (by rw [hjoin]; exact List.cons_ne_nil _ _) hnnl]
    rw [filterDiffAux_blocks cfg (b :: bs') [] false hwf]

theorem getFilteredChanges_eq_filterDiff (cfg : CacheConfig) (raw : Str) :
    getFilteredChanges cfg raw = filterDiff cfg raw := by
  unfold getFilteredChanges filterDiff
  by_cases h : raw = [] <;> simp [h]

/-- **C2**: excluded files never affect the fingerprint hash.  For a fixed
configuration, two rendered unified diffs whose included (non-excluded)
file sections are identical — they may differ arbitrarily in sections of
excluded files — have identical filtered diffs and identical fingerprint
content hashes, whatever map iteration orders the two runs see. -/
theorem excluded_files_do_not_affect_hash (cfg : CacheConfig) (sha : Str → Str)
    (commitRange branch : Str) (t1 t2 : Int) (bs1 bs2 : List DiffBlock)
    (o1 o2 : List (Str × Str))
    (hwf1 : ∀ b ∈ bs1, wfBlock b) (hwf2 : ∀ b ∈ bs2, wfBlock b)
    (hsame : bs1.filter (fun b => shouldIncludeFile cfg b.path) =
      bs2.filter (fun b => shouldIncludeFile cfg b.path))
    (ho1 : o1.Perm (generateFileHashes sha (getFilteredChanges cfg (renderDiff bs1))))
    (ho2 : o2.Perm (generateFileHashes sha (getFilteredChanges cfg (renderDiff bs2)))) :
    getFilteredChanges cfg (renderDiff bs1) = getFilteredChanges cfg (renderDiff bs2) ∧
    (generateFingerprintPure cfg sha branch commitRange (renderDiff bs1) t1 o1).1 =
      (generateFingerprintPure cfg sha branch commitRange (renderDiff bs2) t2 o2).1 := by
  have hfd : getFilteredChanges cfg (renderDiff bs1) =
      getFilteredChanges cfg (renderDiff bs2) := by
    rw [getFilteredChanges_eq_filterDiff, getFilteredChanges_eq_filterDiff,
      filterDiff_renderDiff cfg bs1 hwf1, filterDiff_renderDiff cfg bs2 hwf2, hsame]
  refine ⟨hfd, ?_⟩
  have he1 := perm_generateFileHashes sha _ o1 ho1
  have he2 := perm_generateFileHashes sha _ o2 ho2
  simp only [generateFingerprintPure, hashFingerprint]
  rw [he1, he2, hfd]

/-- Witness for C2: under a configuration excluding `*.md`, two git-shaped
diffs (each file section carrying its `--- a/<path>` and `+++ b/<path>`
marker lines and a hunk) that agree on `a.go` but differ inside `b.md`
filter and hash identically. -/
theorem excluded_files_do_not_affect_hash_witness :
    getFilteredChanges ⟨7, 100, [str "*.md"], [], [], 1⟩
        (renderDiff
          [⟨str "a.go", [str "--- a/a.go", str "+++ b/a.go", str "@@ -1 +1 @@", str "+x"]⟩,
           ⟨str "b.md", [str "--- a/b.md", str "+++ b/b.md", str "@@ -1 +1 @@", str "+y"]⟩]) =
      getFilteredChanges ⟨7, 100, [str "*.md"], [], [], 1⟩
        (renderDiff
          [⟨str "a.go", [str "--- a/a.go", str "+++ b/a.go", str "@@ -1 +1 @@", str "+x"]⟩,
           ⟨str "b.md", [str "--- a/b.md", str "+++ b/b.md", str "@@ -1 +1 @@", str "+z"]⟩]) ∧
    (generateFingerprintPure ⟨7, 100, [str "*.md"], [], [], 1⟩ (fun s => s)
        (str "main") (str "origin/main..HEAD")
        (renderDiff
          [⟨str "a.go", [str "--- a/a.go", str "+++ b/a.go", str "@@ -1 +1 @@", str "+x"]⟩,
           ⟨str "b.md", [str "--- a/b.md", str "+++ b/b.md", str "@@ -1 +1 @@", str "+y"]⟩]) 1
        (generateFileHashes (fun s => s)
          (getFilteredChanges ⟨7, 100, [str "*.md"], [], [], 1⟩
            (renderDiff
              [⟨str "a.go", [str "--- a/a.go", str "+++ b/a.go", str "@@ -1 +1 @@", str "+x"]⟩,
               ⟨str "b.md", [str "--- a/b.md", str "+++ b/b.md", str "@@ -1 +1 @@", str "+y"]⟩])))).1 =
      (generateFingerprintPure ⟨7, 100, [str "*.md"], [], [], 1⟩ (fun s => s)
        (str "main") (str "origin/main..HEAD")
        (renderDiff
          [⟨str "a.go", [str "--- a/a.go", str "+++ b/a.go", str "@@ -1 +1 @@", str "+x"]⟩,
           ⟨str "b.md", [str "--- a/b.md", str "+++ b/b.md", str "@@ -1 +1 @@", str "+z"]⟩]) 2
        (generateFileHashes (fun s => s)
          (getFilteredChanges ⟨7, 100, [str "*.md"], [], [], 1⟩
            (renderDiff
              [⟨str "a.go", [str "--- a/a.go", str "+++ b/a.go", str "@@ -1 +1 @@", str "+x"]⟩,
               ⟨str "b.md", [str "--- a/b.md", str "+++ b/b.md", str "@@ -1 +1 @@", str "+z"]⟩])))).1 :=
  excluded_files_do_not_affect_hash ⟨7, 100, [str "*.md"], [], [], 1⟩ (fun s => s)
    (str "origin/main..HEAD") (str "main") 1 2
    [⟨str "a.go", [str "--- a/a.go", str "+++ b/a.go", str "@@ -1 +1 @@", str "+x"]⟩,
     ⟨str "b.md", [str "--- a/b.md", str "+++ b/b.md", str "@@ -1 +1 @@", str "+y"]⟩]
    [⟨str "a.go", [str "--- a/a.go", str "+++ b/a.go", str "@@ -1 +1 @@", str "+x"]⟩,
     ⟨str "b.md", [str "--- a/b.md", str "+++ b/b.md", str "@@ -1 +1 @@", str "+z"]⟩]
    _ _ (by decide) (by decide) (by decide)
    (List.Perm.refl _) (List.Perm.refl _)

end DrDuck
